import Mathlib

/-!
Verification of the unologger asynchronous logging pipeline.

This file gives a shallow embedding, in Lean 4, of the parts of the
unologger Go library that the checked claims are about:

* the masking stage (`masking.go`): regex-rule masking, structured
  field-name masking, and the JSON decode / re-encode step it uses
  (Go `encoding/json` with `UseNumber()` on decode and
  `SetEscapeHTML(false)` on encode);
* the ingestion queue (`pipeline.go`, `Logger.enqueue`) with its
  blocking, non-blocking and drop-oldest policies;
* the per-entry processing step of `Logger.processBatch` and the
  severity routing of `Logger.writeToAll` (`writers.go`);
* the retry loop of `Logger.safeWrite` (`writers.go`);
* the hook runner `Logger.runHooks` and the bounded hook-failure
  ring of `Logger.recordHookError` (`hooks.go`).

Modelling conventions:

* Go strings are embedded as `List Char` (sequences of unicode code
  points); byte-level UTF-8 coding is not modelled.  Go compares and
  sorts strings byte-wise, which agrees with code-point order.
* Go `int` / `int64` / `time.Duration` values are embedded as `Int`;
  arithmetic is exact (overflow of 64-bit arithmetic is outside the
  modelled range).
* The compiled regexes of `MaskRuleRegex.Pattern` are modelled by
  literal patterns (`Option (List Char)`, `none` standing for a nil
  `*regexp.Regexp`); `Regexp.ReplaceAllString` on a literal pattern
  replaces the leftmost non-overlapping occurrences, scanning the
  input (not the replacement text), which `replaceAll` below mirrors.
* External nondeterminism (channel races, sink write results, clock
  reads, hook behaviour) is supplied by explicit oracle arguments.
-/

namespace Unologger

/-! ## JSON values

The decoded form of a message in structured mode.  Go decodes into
`interface{}` with `UseNumber()`: numbers keep their literal text
(`json.Number`), objects become `map[string]interface{}`.  Because the
only consumers are the key-pointwise masking walk and the re-encoder,
and Go's encoder writes map keys in sorted order, objects are embedded
as key-sorted association lists: the decoder below inserts members in
sorted order (duplicate keys last-wins, as in Go), and the encoder
writes members in stored order. -/

inductive JVal where
  | null : JVal
  | bool (b : Bool) : JVal
  | num (lit : List Char) : JVal
  | str (s : List Char) : JVal
  | arr (elems : List JVal) : JVal
  | obj (members : List (List Char × JVal)) : JVal

/-- Whitespace skipped by the `encoding/json` scanner. -/
def isWsChar (c : Char) : Bool :=
  c == ' ' || c == '\t' || c == '\n' || c == '\r'

/-- Drop leading JSON whitespace. -/
def skipWs : List Char → List Char
  | c :: cs => if isWsChar c then skipWs cs else c :: cs
  | [] => []

def isDigitChar (c : Char) : Bool := '0' ≤ c && c ≤ '9'

/-- Longest leading run of decimal digits, and the remainder. -/
def digitRun : List Char → List Char × List Char
  | c :: cs =>
    if isDigitChar c then
      let p := digitRun cs
      (c :: p.1, p.2)
    else ([], c :: cs)
  | [] => ([], [])

/-- Optional fraction part `.digits` of a JSON number (empty when the
input does not continue with a dot; `none` on a dot with no digits). -/
def fracPart : List Char → Option (List Char × List Char)
  | [] => some ([], [])
  | c :: r =>
    if c = '.' then
      match digitRun r with
      | ([], _) => none
      | (ds, rest) => some ('.' :: ds, rest)
    else some ([], c :: r)

/-- Optional exponent part `e[+-]?digits` of a JSON number. -/
def expPart : List Char → Option (List Char × List Char)
  | [] => some ([], [])
  | c :: r =>
    if c = 'e' ∨ c = 'E' then
      match r with
      | [] => none
      | c1 :: r1 =>
        if c1 = '+' then
          (match digitRun r1 with
           | ([], _) => none
           | (ds, rest) => some (c :: '+' :: ds, rest))
        else if c1 = '-' then
          (match digitRun r1 with
           | ([], _) => none
           | (ds, rest) => some (c :: '-' :: ds, rest))
        else
          (match digitRun (c1 :: r1) with
           | ([], _) => none
           | (ds, rest) => some (c :: ds, rest))
    else some ([], c :: r)

/-- Scan a JSON number token (grammar
`-?(0|[1-9][0-9]*)(.[0-9]+)?([eE][+-]?[0-9]+)?`, as validated by the
`encoding/json` scanner), returning its literal text and the rest. -/
def scanNum (cs : List Char) : Option (List Char × List Char) :=
  let sp : List Char × List Char :=
    match cs with
    | [] => ([], [])
    | c :: r => if c = '-' then (['-'], r) else ([], c :: r)
  match digitRun sp.2 with
  | ([], _) => none
  | (ds, cs2) =>
    if ds.head? = some '0' ∧ ds.length ≠ 1 then none
    else
      match fracPart cs2 with
      | none => none
      | some (fr, cs3) =>
        match expPart cs3 with
        | none => none
        | some (ex, cs4) => some (sp.1 ++ ds ++ fr ++ ex, cs4)

def hexDigitVal (c : Char) : Option Nat :=
  let n := c.toNat
  if 48 ≤ n && n ≤ 57 then some (n - 48)
  else if 97 ≤ n && n ≤ 102 then some (n - 87)
  else if 65 ≤ n && n ≤ 70 then some (n - 55)
  else none

def hexQuad (a b c d : Char) : Option Nat := do
  let va ← hexDigitVal a
  let vb ← hexDigitVal b
  let vc ← hexDigitVal c
  let vd ← hexDigitVal d
  pure (((va * 16 + vb) * 16 + vc) * 16 + vd)

def simpleUnescape : Char → Option Char
  | '"' => some '"'
  | '\\' => some '\\'
  | '/' => some '/'
  | 'b' => some (Char.ofNat 8)
  | 'f' => some (Char.ofNat 12)
  | 'n' => some '\n'
  | 'r' => some '\r'
  | 't' => some '\t'
  | _ => none

/-- Decode a JSON string body after the opening quote, per the
`encoding/json` unquoter: raw control characters are rejected, the
eight simple escapes and `\uXXXX` are decoded, a `\uXXXX` high
surrogate combines with a following low surrogate and a lone
surrogate half becomes U+FFFD.  Structural recursion on `fuel`; every
step consumes at least one character, so `cs.length` steps always
complete the scan. -/
def parseStrBodyF : Nat → List Char → Option (List Char × List Char)
  | 0, _ => none
  | fuel + 1, cs =>
    match cs with
    | '"' :: rest => some ([], rest)
    | '\\' :: 'u' :: a :: b :: c :: d :: rest =>
      (match hexQuad a b c d with
       | none => none
       | some v =>
         if 0xD800 ≤ v && v ≤ 0xDBFF then
           match rest with
           | '\\' :: 'u' :: a2 :: b2 :: c2 :: d2 :: rest2 =>
             (match hexQuad a2 b2 c2 d2 with
              | none => none
              | some v2 =>
                if 0xDC00 ≤ v2 && v2 ≤ 0xDFFF then
                  (parseStrBodyF fuel rest2).map fun p =>
                    (Char.ofNat (0x10000 + (v - 0xD800) * 0x400 + (v2 - 0xDC00)) :: p.1, p.2)
                else
                  (parseStrBodyF fuel rest).map fun p => (Char.ofNat 0xFFFD :: p.1, p.2))
           | _ => (parseStrBodyF fuel rest).map fun p => (Char.ofNat 0xFFFD :: p.1, p.2)
         else if 0xDC00 ≤ v && v ≤ 0xDFFF then
           (parseStrBodyF fuel rest).map fun p => (Char.ofNat 0xFFFD :: p.1, p.2)
         else
           (parseStrBodyF fuel rest).map fun p => (Char.ofNat v :: p.1, p.2))
    | '\\' :: e :: rest =>
      (match simpleUnescape e with
       | none => none
       | some ch => (parseStrBodyF fuel rest).map fun p => (ch :: p.1, p.2))
    | c :: rest =>
      if c.toNat < 0x20 then none
      else (parseStrBodyF fuel rest).map fun p => (c :: p.1, p.2)
    | [] => none

/-- Decode a JSON string body after the opening quote. -/
def parseStrBody (cs : List Char) : Option (List Char × List Char) :=
  parseStrBodyF cs.length cs

/-- Insert a member into a key-sorted association list, replacing an
existing binding of the same key (Go map write: last value wins). -/
def insertKV (k : List Char) (v : JVal) :
    List (List Char × JVal) → List (List Char × JVal)
  | [] => [(k, v)]
  | (k0, v0) :: rest =>
    if k = k0 then (k, v) :: rest
    else if k < k0 then (k, v) :: (k0, v0) :: rest
    else (k0, v0) :: insertKV k v rest

mutual

/-- Decode one JSON value (the `encoding/json` grammar with
`UseNumber()`).  `fuel` only forces totality; `src.length + 1` is
enough for every input the Go decoder accepts. -/
def parseVal : Nat → List Char → Option (JVal × List Char)
  | 0, _ => none
  | fuel + 1, cs =>
    match skipWs cs with
    | 'n' :: 'u' :: 'l' :: 'l' :: r => some (.null, r)
    | 't' :: 'r' :: 'u' :: 'e' :: r => some (.bool true, r)
    | 'f' :: 'a' :: 'l' :: 's' :: 'e' :: r => some (.bool false, r)
    | '"' :: r =>
      (match parseStrBody r with
       | some (s, r1) => some (.str s, r1)
       | none => none)
    | '[' :: r =>
      (match skipWs r with
       | ']' :: r1 => some (.arr [], r1)
       | r0 =>
         match parseElems fuel r0 with
         | some (es, r1) => some (.arr es, r1)
         | none => none)
    | '{' :: r =>
      (match skipWs r with
       | '}' :: r1 => some (.obj [], r1)
       | r0 =>
         match parseMembers fuel [] r0 with
         | some (ms, r1) => some (.obj ms, r1)
         | none => none)
    | c :: rest =>
      if c = '-' || isDigitChar c then
        match scanNum (c :: rest) with
        | some (lit, r1) => some (.num lit, r1)
        | none => none
      else none
    | [] => none

/-- Decode the elements of a non-empty array, after the `[`. -/
def parseElems : Nat → List Char → Option (List JVal × List Char)
  | 0, _ => none
  | fuel + 1, cs =>
    match parseVal fuel cs with
    | none => none
    | some (v, r) =>
      match skipWs r with
      | ',' :: r1 =>
        (match parseElems fuel r1 with
         | some (vs, r2) => some (v :: vs, r2)
         | none => none)
      | ']' :: r1 => some ([v], r1)
      | _ => none

/-- Decode the members of a non-empty object, after the `{`,
accumulating into a sorted association list (the Go map). -/
def parseMembers : Nat → List (List Char × JVal) → List Char →
    Option (List (List Char × JVal) × List Char)
  | 0, _, _ => none
  | fuel + 1, acc, cs =>
    match skipWs cs with
    | '"' :: r =>
      (match parseStrBody r with
       | none => none
       | some (k, r1) =>
         match skipWs r1 with
         | ':' :: r2 =>
           (match parseVal fuel r2 with
            | none => none
            | some (v, r3) =>
              match skipWs r3 with
              | ',' :: r4 => parseMembers fuel (insertKV k v acc) r4
              | '}' :: r4 => some (insertKV k v acc, r4)
              | _ => none)
         | _ => none)
    | _ => none

end

/-- Decode one value from the front of a message, ignoring whatever
follows it: `json.Decoder.Decode` is a stream decoder and leaves any
trailing input for a later read. -/
def parseMsg (s : List Char) : Option JVal :=
  match parseVal (s.length + 1) s with
  | some (v, _) => some v
  | none => none

def hexDigitChar (n : Nat) : Char :=
  if n < 10 then Char.ofNat ('0'.toNat + n) else Char.ofNat ('a'.toNat + (n - 10))

/-- JSON-escape one character, per the `encoding/json` encoder with
`SetEscapeHTML(false)`: quote, backslash and the control characters
are escaped (`\n`, `\r`, `\t` symbolically, others as `\u00xx`),
U+2028 and U+2029 are escaped, everything else is written raw. -/
def escapeChar (c : Char) : List Char :=
  if c = '"' then ['\\', '"']
  else if c = '\\' then ['\\', '\\']
  else if c = '\n' then ['\\', 'n']
  else if c = '\r' then ['\\', 'r']
  else if c = '\t' then ['\\', 't']
  else if c.toNat < 0x20 then
    ['\\', 'u', '0', '0', hexDigitChar (c.toNat / 16), hexDigitChar (c.toNat % 16)]
  else if c.toNat = 0x2028 then ['\\', 'u', '2', '0', '2', '8']
  else if c.toNat = 0x2029 then ['\\', 'u', '2', '0', '2', '9']
  else [c]

/-- Encode a string with its quotes. -/
def renderStr (s : List Char) : List Char :=
  '"' :: (s.flatMap escapeChar ++ ['"'])

mutual

/-- Encode a value, per the `encoding/json` encoder with
`SetEscapeHTML(false)`: compact output, object keys in sorted order
(already the stored order here), `json.Number` literals written raw.
The encoder's trailing newline, which `maskJSONFieldsWithRules` trims
off, is not produced. -/
def renderVal : JVal → List Char
  | .null => 'n' :: ['u', 'l', 'l']
  | .bool true => 't' :: ['r', 'u', 'e']
  | .bool false => 'f' :: ['a', 'l', 's', 'e']
  | .num lit => lit
  | .str s => renderStr s
  | .arr es => '[' :: (renderItems es ++ [']'])
  | .obj ms => '{' :: (renderMembers ms ++ ['}'])

def renderItems : List JVal → List Char
  | [] => []
  | v :: vs => renderVal v ++ renderItemsTail vs

def renderItemsTail : List JVal → List Char
  | [] => []
  | v :: vs => ',' :: (renderVal v ++ renderItemsTail vs)

def renderMembers : List (List Char × JVal) → List Char
  | [] => []
  | (k, v) :: ms => renderStr k ++ ':' :: (renderVal v ++ renderMembersTail ms)

def renderMembersTail : List (List Char × JVal) → List Char
  | [] => []
  | (k, v) :: ms => ',' :: (renderStr k ++ ':' :: (renderVal v ++ renderMembersTail ms))

end

/-! ## The masking stage (`masking.go`) -/

/-- A compiled regex masking rule.  `pattern = none` models a nil
`*regexp.Regexp`; `some p` a compiled literal pattern `p`. -/
structure MaskRuleRegex where
  pattern : Option (List Char)
  replacement : List Char
deriving DecidableEq

/-- A field-name masking rule (`MaskFieldRule` of `logger_types.go`). -/
structure MaskFieldRule where
  keys : List (List Char)
  replacement : List Char
deriving DecidableEq

/-- `Regexp.ReplaceAllString` for a literal pattern: replace the
leftmost non-overlapping occurrences of `pat`, continuing the scan in
the input after each match (the replacement text is never rescanned).
The empty pattern (which no compiled Go regex that this model covers
produces) leaves the input unchanged.  Structural recursion on `fuel`;
every step consumes at least one character, so `cs.length` steps
always complete the scan. -/
def replaceAllF (pat repl : List Char) : Nat → List Char → List Char
  | 0, _ => []
  | fuel + 1, cs =>
    match cs with
    | [] => []
    | c :: cs1 =>
      if !pat.isEmpty && pat.isPrefixOf cs then
        repl ++ replaceAllF pat repl fuel (cs.drop pat.length)
      else c :: replaceAllF pat repl fuel cs1

def replaceAll (pat repl : List Char) (cs : List Char) : List Char :=
  replaceAllF pat repl cs.length cs

/-- `maskRegexWithRules` of `masking.go`: apply each regex rule in
order, skipping rules with a nil pattern. -/
def maskRegexWithRules (s : List Char) (rules : List MaskRuleRegex) : List Char :=
  if rules.isEmpty then s
  else
    rules.foldl
      (fun masked rule =>
        match rule.pattern with
        | some p => replaceAll p rule.replacement masked
        | none => masked)
      s

/-- `shouldMaskKeyWithRules` of `masking.go`: does any rule list this
field name? -/
def shouldMaskKeyWithRules (key : List Char) (rules : List MaskFieldRule) : Bool :=
  rules.any fun rule => rule.keys.any fun rk => rk == key

/-- `getMaskReplacementForKeyWithRules` of `masking.go`: the
replacement of the first rule whose key list contains the field name,
with a three-asterisk fallback when no rule matches. -/
def getMaskReplacementForKeyWithRules (key : List Char) :
    List MaskFieldRule → List Char
  | [] => ['*', '*', '*']
  | rule :: rest =>
    if rule.keys.any fun rk => rk == key then rule.replacement
    else getMaskReplacementForKeyWithRules key rest

mutual

/-- `maskJSONValueWithRules` of `masking.go`: walk the decoded value;
a member whose key matches a rule gets the replacement string as its
value, other members and array elements are walked recursively. -/
def maskJSONValueWithRules (v : JVal) (rules : List MaskFieldRule) : JVal :=
  match v with
  | .obj ms => .obj (maskMembers ms rules)
  | .arr es => .arr (maskElems es rules)
  | other => other

def maskMembers :
    List (List Char × JVal) → List MaskFieldRule → List (List Char × JVal)
  | [], _ => []
  | (k, v) :: rest, rules =>
    (if shouldMaskKeyWithRules k rules then
       (k, .str (getMaskReplacementForKeyWithRules k rules))
     else (k, maskJSONValueWithRules v rules)) :: maskMembers rest rules

def maskElems : List JVal → List MaskFieldRule → List JVal
  | [], _ => []
  | v :: vs, rules => maskJSONValueWithRules v rules :: maskElems vs rules

end

/-- `maskJSONFieldsWithRules` of `masking.go`: with no field rules the
input is returned untouched (and reported as handled); otherwise the
message is decoded, masked and re-encoded, the decoder's failure
falling back to the original string. -/
def maskJSONFieldsWithRules (s : List Char) (rules : List MaskFieldRule) :
    List Char × Bool :=
  if rules.isEmpty then (s, true)
  else
    match parseMsg s with
    | none => (s, false)
    | some v => (renderVal (maskJSONValueWithRules v rules), true)

/-- `Logger.applyMasking` of `masking.go`, with the rule lists read
from the dynamic configuration passed explicitly. -/
def applyMasking (regexRules : List MaskRuleRegex)
    (jsonFieldRules : List MaskFieldRule) (msg : List Char)
    (jsonMode : Bool) : List Char :=
  if jsonMode then
    match maskJSONFieldsWithRules msg jsonFieldRules with
    | (maskedJSON, true) => maskRegexWithRules maskedJSON regexRules
    | (_, false) => maskRegexWithRules msg regexRules
  else maskRegexWithRules msg regexRules

/-! ## Severity levels (`logger_types.go`)

Go declares `type Level int32` with `DEBUG < INFO < WARN < ERROR <
FATAL` as iota constants 0..4. -/

abbrev Level := Int

def DEBUG : Level := 0
def INFO : Level := 1
def WARN : Level := 2
def ERROR : Level := 3
def FATAL : Level := 4

/-! ## The ingestion queue (`pipeline.go`, `Logger.enqueue`)

The channel `l.ch` is embedded as a FIFO list; entries are natural
number identifiers.  Concurrency makes the outcome of each
non-blocking channel operation environment-dependent, so the three
`select ... default` outcomes inside `enqueue` are supplied by an
oracle (a send can fail whenever the channel is full at that instant,
and a concurrent producer can fill the freed slot between the eviction
and the second send; a receive fails only on an empty channel, which
the model checks directly).  The blocking send waits until space is
available, so its completed effect is an append.

Ghost state beyond the Go fields: `droppedRecs` records which entry
each `droppedCount.Add(1)` accounted, `pool` the entries handed back
by `recycleEntry`, and `accepted` counts the `enqueue` calls made
before shutdown began. -/

structure EnqOracle where
  sendOk : Bool
  recvOk : Bool
  sendOk2 : Bool

structure LogState where
  queue : List Nat
  pool : List Nat
  dropped : Nat
  droppedRecs : List Nat
  accepted : Nat
  written : Nat
  fmtErrs : Nat
  closed : Bool
  nonBlocking : Bool
  dropOldest : Bool

/-- `recycleEntry` of `pipeline.go`: clear the entry and return it to
the pool. -/
def recycleEntry (s : LogState) (e : Nat) : LogState :=
  { s with pool := s.pool ++ [e] }

/-- Drop the entry now in hand: count it and recycle it (the shared
tail of the failure paths of `enqueue`). -/
def dropNew (s : LogState) (e : Nat) : LogState :=
  { s with dropped := s.dropped + 1, droppedRecs := s.droppedRecs ++ [e],
           pool := s.pool ++ [e] }

/-- `Logger.enqueue` of `pipeline.go`. -/
def enqueue (s : LogState) (e : Nat) (o : EnqOracle) : LogState :=
  if s.closed then recycleEntry s e
  else
    let s1 := { s with accepted := s.accepted + 1 }
    if !s1.nonBlocking then { s1 with queue := s1.queue ++ [e] }
    else if s1.dropOldest then
      if o.sendOk then { s1 with queue := s1.queue ++ [e] }
      else
        match s1.queue with
        | [] => dropNew s1 e
        | oldest :: restQ =>
          if o.recvOk then
            let s2 := { s1 with
              queue := restQ
              dropped := s1.dropped + 1
              droppedRecs := s1.droppedRecs ++ [oldest]
              pool := s1.pool ++ [oldest] }
            if o.sendOk2 then { s2 with queue := s2.queue ++ [e] }
            else dropNew s2 e
          else dropNew s1 e
    else if o.sendOk then { s1 with queue := s1.queue ++ [e] }
    else dropNew s1 e

/-- The per-entry counter effect of `Logger.processBatch`
(`pipeline.go`): pop the next queued entry, bump `writtenCount`, and
bump `writeErrCount` when the formatter fails; either way the entry is
recycled.  (The sink writes of the success path are modelled by
`processEntry` below.) -/
def procStep (s : LogState) (fmtOk : Bool) : LogState :=
  match s.queue with
  | [] => s
  | e :: restQ =>
    { s with queue := restQ, written := s.written + 1,
             fmtErrs := s.fmtErrs + (if fmtOk then 0 else 1),
             pool := s.pool ++ [e] }

/-- One observable event of the ingestion/worker pipeline. -/
inductive PipeEvent where
  | enq (e : Nat) (o : EnqOracle) : PipeEvent
  | proc (fmtOk : Bool) : PipeEvent
  | shutdown : PipeEvent

def pipeStep (s : LogState) : PipeEvent → LogState
  | .enq e o => enqueue s e o
  | .proc fmtOk => procStep s fmtOk
  | .shutdown => { s with closed := true }

def runPipe (s : LogState) (evs : List PipeEvent) : LogState :=
  evs.foldl pipeStep s

def initState (nb dropO : Bool) : LogState :=
  ⟨[], [], 0, [], 0, 0, 0, false, nb, dropO⟩

/-! ## The writer stage (`writers.go`) -/

/-- Identity of a write target, by the call site in `writeToAll`. -/
inductive SinkRef where
  | stdoutSink : SinkRef
  | stderrSink : SinkRef
  | rotationSink (name : List Char) : SinkRef
  | extraSink (name : List Char) : SinkRef
deriving DecidableEq

/-- The snapshot `writeToAll` takes of the output configuration:
whether each primary writer is non-nil, the rotation sink (present
only when both the sink and its writer are non-nil) with its name, and
the extra sinks with their names and writer non-nilness. -/
structure Outputs where
  stdOut : Bool
  errOut : Bool
  rotation : Option (List Char)
  extras : List (List Char × Bool)

/-- The write `safeWrite` performs for one sink: none when the writer
is nil. -/
def sinkWrites (present : Bool) (ref : SinkRef) (p : List Nat) :
    List (SinkRef × List Nat) :=
  if present then [(ref, p)] else []

/-- The loop over the extra writers at the end of `writeToAll`. -/
def extrasWrites (p : List Nat) : List (List Char × Bool) → List (SinkRef × List Nat)
  | [] => []
  | sk :: rest => sinkWrites sk.2 (.extraSink sk.1) p ++ extrasWrites p rest

/-- `Logger.writeToAll` of `writers.go`: the sequence of sink writes
dispatched for one formatted buffer. -/
def writeToAll (o : Outputs) (p : List Nat) (isError : Bool) :
    List (SinkRef × List Nat) :=
  (if isError then sinkWrites o.errOut .stderrSink p
   else sinkWrites o.stdOut .stdoutSink p)
  ++ (match o.rotation with
      | some n => [(.rotationSink n, p)]
      | none => [])
  ++ extrasWrites p o.extras

/-- The write-dispatch half of one `Logger.processBatch` iteration
(`pipeline.go` lines 210-226): a record that formats successfully is
routed with `isErrLevel := lvl >= WARN`; a formatter failure reaches
no sink. -/
def processEntry (o : Outputs) (lvl : Level) (fmtRes : Option (List Nat)) :
    List (SinkRef × List Nat) :=
  match fmtRes with
  | none => []
  | some b => writeToAll o b (decide (WARN ≤ lvl))

/-! ## The retry loop (`writers.go`, `Logger.safeWrite`) -/

/-- `RetryPolicy` of `logger_types.go` (durations in nanoseconds). -/
structure RetryPolicy where
  maxRetries : Int
  backoff : Int
  jitter : Int
  exponential : Bool

/-- The observable trace of one `safeWrite` call: how many times the
underlying `Write` ran, how often each error counter was bumped, and
the argument of each `time.Sleep` between attempts. -/
structure WriteTrace where
  attempts : Nat
  errIncs : Nat
  sinkIncs : Nat
  delays : List Int
deriving DecidableEq

def intAbs (n : Int) : Int := if n < 0 then -n else n

/-- The retry loop of `safeWrite`, from the attempt numbered
`attempt` with `remaining` further attempts allowed after it.
`out i` tells whether the i-th `w.Write` succeeds and `now i` is the
`time.Now().UnixNano()` read used for the jitter after attempt `i`. -/
def safeWriteLoop (out : Nat → Bool) (d jit : Int) (expo : Bool)
    (now : Nat → Int) : Nat → Nat → WriteTrace
  | 0, attempt =>
    if out attempt then ⟨1, 0, 0, []⟩ else ⟨1, 1, 1, []⟩
  | remaining + 1, attempt =>
    if out attempt then ⟨1, 0, 0, []⟩
    else
      let sleep := (if expo then d * 2 ^ attempt else d)
        + (if 0 < jit then intAbs (now attempt) % jit else 0)
      let t := safeWriteLoop out d jit expo now remaining (attempt + 1)
      ⟨t.attempts + 1, t.errIncs + 1, t.sinkIncs + 1, sleep :: t.delays⟩

/-- `Logger.safeWrite` of `writers.go`: nil writers return without
writing; `MaxRetries` and `Backoff` are clamped to be non-negative;
then the loop runs attempts `0 .. maxRetries`. -/
def safeWrite (rp : RetryPolicy) (wNil : Bool) (out : Nat → Bool)
    (now : Nat → Int) : WriteTrace :=
  if wNil then ⟨0, 0, 0, []⟩
  else
    let mr := if rp.maxRetries < 0 then 0 else rp.maxRetries
    let d := if rp.backoff < 0 then 0 else rp.backoff
    safeWriteLoop out d rp.jitter rp.exponential now mr.toNat 0

/-! ## The hook runner (`hooks.go`) -/

/-- What one hook invocation would do: return nil, return an error,
panic, or keep running past any configured timeout window.  `inTime`
says whether the function completes before the wall-clock timeout
(irrelevant when no timeout is configured). -/
inductive HookRes where
  | ok : HookRes
  | fails : HookRes
  | panics : HookRes
deriving DecidableEq

structure HookSpec where
  id : Nat
  inTime : Bool
  res : HookRes
deriving DecidableEq

/-- The failure kinds recorded by `recordHookError`. -/
inductive HookFailure where
  | timedOut : HookFailure
  | returnedErr : HookFailure
  | panicked : HookFailure
deriving DecidableEq

/-- The observable outcome of one `runHooks` call: which hooks were
started, in order; which failures were recorded; and whether the
process crashed on an unrecovered panic. -/
structure HookRun where
  invoked : List Nat
  failures : List HookFailure
  crashed : Bool
deriving DecidableEq

/-- One iteration of the `runHooks` loop for one hook.  With a
configured timeout (`timeoutPos`), the hook body runs on a fresh
goroutine (`go func() { err = hk(ev); close(done) }()`): a panic there
unwinds that goroutine past any recover and terminates the process;
a hook that outlives the timeout is recorded as `ErrHookTimeout`; an
error from a hook that finishes in time is recorded.  Without a
timeout the hook runs on the worker goroutine under the deferred
recover: panics are recorded as `ErrHookPanic`. -/
def runOneHook (timeoutPos : Bool) (hk : HookSpec) :
    List HookFailure × Bool :=
  if timeoutPos then
    match hk.res with
    | .panics => ([], true)
    | r =>
      if !hk.inTime then ([.timedOut], false)
      else
        match r with
        | .fails => ([.returnedErr], false)
        | _ => ([], false)
  else
    match hk.res with
    | .panics => ([.panicked], false)
    | .fails => ([.returnedErr], false)
    | .ok => ([], false)

/-- `Logger.runHooks` of `hooks.go`, over the snapshot of the hook
list taken by `snapshotHooks`: run the hooks in order; a process
crash (unrecovered panic on the timeout path) stops the loop. -/
def runHooks (timeoutPos : Bool) : List HookSpec → HookRun
  | [] => ⟨[], [], false⟩
  | hk :: rest =>
    let step := runOneHook timeoutPos hk
    if step.2 then ⟨[hk.id], step.1, true⟩
    else
      let tail := runHooks timeoutPos rest
      ⟨hk.id :: tail.invoked, step.1 ++ tail.failures, tail.crashed⟩

/-! ## The hook-failure ring (`hooks.go`, `Logger.recordHookError`) -/

/-- `defaultHookErrMax` of `logger_core.go`. -/
def defaultHookErrMax : Int := 1000

/-- A recorded hook failure; the fields copied from the event are
irrelevant to the ring discipline, so entries are identifiers. -/
structure HookRing where
  log : List Nat
  count : Nat
  maxErr : Int

/-- `Logger.recordHookError` of `hooks.go`: bump the monotonic
counter; fall back to the default capacity when the configured one is
not positive; when the buffer is at (or beyond) capacity, trim the
oldest entries to leave room, then append. -/
def recordHookError (r : HookRing) (e : Nat) : HookRing :=
  let m := if r.maxErr ≤ 0 then defaultHookErrMax else r.maxErr
  if m ≤ (r.log.length : Int) then
    let trim0 := (r.log.length : Int) - (m - 1)
    let trim := if trim0 < 1 then 1 else trim0
    { log := r.log.drop trim.toNat ++ [e], count := r.count + 1, maxErr := m }
  else
    { log := r.log ++ [e], count := r.count + 1, maxErr := m }

def recordHookErrors (r : HookRing) (es : List Nat) : HookRing :=
  es.foldl recordHookError r

/-! ## Well-formedness of decoded values

The shape invariants that every value produced by the decoder enjoys
and that the encoder relies on for the decode / encode round trip:
number literals are exactly the scanned tokens, object member lists
are strictly key-sorted (the stored order realizing the sorted-key
output of the Go encoder). -/

/-- The continuations after a rendered number inside a rendered value:
nothing, or a character that cannot extend a number token. -/
def numStop : List Char → Prop
  | [] => True
  | c :: _ => ¬(isDigitChar c = true ∨ c = '.' ∨ c = 'e' ∨ c = 'E')

/-- A well-formed JSON number literal: sign, integer part without
leading zeros, optional fraction, optional exponent — exactly the
tokens `scanNum` produces. -/
def GoodNum (tok : List Char) : Prop :=
  ∃ sgn ds fr ex, tok = sgn ++ ds ++ fr ++ ex
    ∧ (sgn = [] ∨ sgn = ['-'])
    ∧ ds ≠ [] ∧ (∀ c ∈ ds, isDigitChar c = true)
    ∧ ¬(ds.head? = some '0' ∧ ds.length ≠ 1)
    ∧ (fr = [] ∨ ∃ ds2, fr = '.' :: ds2 ∧ ds2 ≠ [] ∧ ∀ c ∈ ds2, isDigitChar c = true)
    ∧ (ex = [] ∨ ∃ e0 sg ds3, (e0 = 'e' ∨ e0 = 'E')
        ∧ (sg = [] ∨ sg = ['+'] ∨ sg = ['-'])
        ∧ ds3 ≠ [] ∧ (∀ c ∈ ds3, isDigitChar c = true) ∧ ex = e0 :: (sg ++ ds3))

/-- Object member lists are strictly sorted by key. -/
def sortedKeys (ms : List (List Char × JVal)) : Prop :=
  List.Pairwise (fun a b => a.1 < b.1) ms

mutual

/-- Well-formedness of a decoded value. -/
def wfVal : JVal → Prop
  | .null => True
  | .bool _ => True
  | .str _ => True
  | .num lit => GoodNum lit
  | .arr es => wfItems es
  | .obj ms => sortedKeys ms ∧ wfMembers ms

def wfItems : List JVal → Prop
  | [] => True
  | v :: vs => wfVal v ∧ wfItems vs

def wfMembers : List (List Char × JVal) → Prop
  | [] => True
  | kv :: ms => wfVal kv.2 ∧ wfMembers ms

end

/-! ## Lemmas and claim theorems -/

/-- C10.  With no field-name rules configured, structured-mode masking
short-circuits before any decoding: the result is exactly the regex
pass over the unmodified message (so key order, whitespace and
invalid JSON are all preserved), identical to the structured-mode-off
result. -/
theorem empty_field_rules_regex_only (rrs : List MaskRuleRegex) (m : List Char) :
    applyMasking rrs [] m true = maskRegexWithRules m rrs
    ∧ applyMasking rrs [] m true = applyMasking rrs [] m false := by
  simp [applyMasking, maskJSONFieldsWithRules, List.isEmpty]

/-- C9.  With a per-hook timeout configured, the hook body runs on a
helper goroutine outside the deferred `recover`, so a panicking hook
crashes the process and the following hook is never invoked, contrary
to the documented panic isolation; without a timeout the same hook
list is recovered and both hooks run. -/
theorem hook_panic_crash :
    runHooks true [⟨0, true, .panics⟩, ⟨1, true, .ok⟩] = ⟨[0], [], true⟩
    ∧ (runHooks true [⟨0, true, .panics⟩, ⟨1, true, .ok⟩]).invoked ≠ [0, 1]
    ∧ runHooks false [⟨0, true, .panics⟩, ⟨1, true, .ok⟩]
        = ⟨[0, 1], [.panicked], false⟩ :=
  ⟨rfl, by decide, rfl⟩

/-- The conservation law of the pipeline counters: every accepted
record is in the queue, written, or dropped. -/
theorem pipeInv_step (s : LogState) (ev : PipeEvent)
    (h : s.accepted = s.written + s.dropped + s.queue.length) :
    (pipeStep s ev).accepted
      = (pipeStep s ev).written + (pipeStep s ev).dropped
        + (pipeStep s ev).queue.length := by
  cases ev with
  | enq e o =>
    simp only [pipeStep, enqueue, recycleEntry, dropNew]
    by_cases hc : s.closed = true
    · simp [hc, h]
    · simp only [Bool.not_eq_true] at hc
      simp only [hc, if_false, Bool.false_eq_true]
      by_cases hnb : s.nonBlocking = true
      · simp only [hnb, Bool.not_true]
        by_cases hdo : s.dropOldest = true
        · simp only [hdo, if_true]
          by_cases hs1 : o.sendOk = true
          · simp [hs1, h]; omega
          · simp only [Bool.not_eq_true] at hs1
            simp only [hs1, Bool.false_eq_true, if_false]
            cases hq : s.queue with
            | nil => simp [h, hq] at h ⊢; omega
            | cons a l =>
              by_cases hr : o.recvOk = true
              · by_cases hs2 : o.sendOk2 = true
                · simp [hr, hs2, h, hq]; omega
                · simp only [Bool.not_eq_true] at hs2
                  simp [hr, hs2, h, hq]; omega
              · simp only [Bool.not_eq_true] at hr
                simp [hr, h, hq]; omega
        · simp only [Bool.not_eq_true] at hdo
          simp only [hdo, Bool.false_eq_true, if_false]
          by_cases hs1 : o.sendOk = true
          · simp [hs1, h]; omega
          · simp only [Bool.not_eq_true] at hs1
            simp [hs1, h]; omega
      · simp only [Bool.not_eq_true] at hnb
        simp [hnb, h]; omega
  | proc fmtOk =>
    simp only [pipeStep, procStep]
    cases hq : s.queue with
    | nil => simpa using h
    | cons a l => simp [h, hq]; omega
  | shutdown => simpa using h

theorem runPipe_inv (evs : List PipeEvent) (s : LogState)
    (h : s.accepted = s.written + s.dropped + s.queue.length) :
    (runPipe s evs).accepted
      = (runPipe s evs).written + (runPipe s evs).dropped
        + (runPipe s evs).queue.length := by
  induction evs generalizing s with
  | nil => simpa [runPipe] using h
  | cons ev evs ih =>
    have h1 := pipeInv_step s ev h
    simpa [runPipe] using ih (pipeStep s ev) h1

/-- C7 (amended).  Along every pipeline execution the accepted count
equals written + dropped + still-queued; hence once the queue is
drained, `written + dropped + fmtErrs` exceeds `accepted` by exactly
the number of formatter failures (the written counter is incremented
for formatter-failing records as well), with equality exactly when no
formatter failure occurred.  Sink write retries touch neither side. -/
theorem counters_invariant (nb dO : Bool) (evs : List PipeEvent) :
    (runPipe (initState nb dO) evs).accepted
      = (runPipe (initState nb dO) evs).written
        + (runPipe (initState nb dO) evs).dropped
        + (runPipe (initState nb dO) evs).queue.length
    ∧ ((runPipe (initState nb dO) evs).queue = [] →
        ((runPipe (initState nb dO) evs).accepted
          ≤ (runPipe (initState nb dO) evs).written
            + (runPipe (initState nb dO) evs).dropped
            + (runPipe (initState nb dO) evs).fmtErrs
        ∧ ((runPipe (initState nb dO) evs).written
            + (runPipe (initState nb dO) evs).dropped
            + (runPipe (initState nb dO) evs).fmtErrs
              = (runPipe (initState nb dO) evs).accepted
            ↔ (runPipe (initState nb dO) evs).fmtErrs = 0))) := by
  have h := runPipe_inv evs (initState nb dO) (by simp [initState])
  refine ⟨h, fun hq => ?_⟩
  rw [hq] at h
  simp only [List.length_nil, Nat.add_zero] at h
  omega

/-- Witness for `counters_invariant` at a concrete execution. -/
theorem counters_invariant_witness :
    (runPipe (initState true true) [.enq 0 ⟨true, true, true⟩, .proc true]).accepted
      = (runPipe (initState true true) [.enq 0 ⟨true, true, true⟩, .proc true]).written
        + (runPipe (initState true true) [.enq 0 ⟨true, true, true⟩, .proc true]).dropped
        + (runPipe (initState true true)
            [.enq 0 ⟨true, true, true⟩, .proc true]).queue.length :=
  (counters_invariant true true [.enq 0 ⟨true, true, true⟩, .proc true]).1

/-- C7, the claim as frozen, refuted: after one accepted record and
nothing processed the claimed lower bound fails (0 < 1); after one
accepted record whose formatting fails — with no sink write, hence no
retry — the claimed equality fails (written + dropped + fmtErrs = 2,
accepted = 1). -/
theorem counters_counterexample :
    ((runPipe (initState false false) [.enq 0 ⟨true, true, true⟩]).written
      + (runPipe (initState false false) [.enq 0 ⟨true, true, true⟩]).dropped
      + (runPipe (initState false false) [.enq 0 ⟨true, true, true⟩]).fmtErrs
      < (runPipe (initState false false) [.enq 0 ⟨true, true, true⟩]).accepted)
    ∧ ((runPipe (initState false false)
          [.enq 0 ⟨true, true, true⟩, .proc false]).queue = []
      ∧ (runPipe (initState false false)
          [.enq 0 ⟨true, true, true⟩, .proc false]).written
        + (runPipe (initState false false)
            [.enq 0 ⟨true, true, true⟩, .proc false]).dropped
        + (runPipe (initState false false)
            [.enq 0 ⟨true, true, true⟩, .proc false]).fmtErrs
        ≠ (runPipe (initState false false)
            [.enq 0 ⟨true, true, true⟩, .proc false]).accepted) := by
  decide

/-- One `recordHookError` call keeps the ring within a positive
capacity and never changes the capacity. -/
theorem recordHookError_len (r : HookRing) (e : Nat) (hm : 0 < r.maxErr)
    (hc : (r.log.length : Int) ≤ r.maxErr) :
    ((recordHookError r e).log.length : Int) ≤ r.maxErr
    ∧ (recordHookError r e).maxErr = r.maxErr := by
  simp only [recordHookError, if_neg (by omega : ¬ r.maxErr ≤ 0)]
  by_cases hfull : r.maxErr ≤ (r.log.length : Int)
  · have hlen : (r.log.length : Int) = r.maxErr := le_antisymm hc hfull
    have htrim : (r.log.length : Int) - (r.maxErr - 1) = 1 := by omega
    simp only [if_pos hfull, htrim, if_neg (by omega : ¬ (1 : Int) < 1)]
    constructor
    · simp only [List.length_append, List.length_drop, List.length_singleton]
      omega
    · trivial
  · simp only [if_neg hfull]
    constructor
    · simp only [List.length_append, List.length_singleton]
      push_cast
      omega
    · trivial

/-- C8.  The hook-failure ring: under any sequence of recordings the
length never exceeds a positive configured capacity; each recording
increments the monotonic counter by exactly one; and a recording that
arrives with the ring at capacity evicts exactly the oldest entry,
appends the new one, and preserves the length. -/
theorem hook_ring_bounded (r : HookRing) (es : List Nat)
    (hm : 0 < r.maxErr) (hc : (r.log.length : Int) ≤ r.maxErr) :
    ((recordHookErrors r es).log.length : Int) ≤ r.maxErr
    ∧ (∀ e, (recordHookError r e).count = r.count + 1)
    ∧ ((r.log.length : Int) = r.maxErr → ∀ e,
        recordHookError r e = ⟨r.log.drop 1 ++ [e], r.count + 1, r.maxErr⟩) := by
  refine ⟨?_, ?_, ?_⟩
  · induction es generalizing r with
    | nil => simpa [recordHookErrors] using hc
    | cons e es ih =>
      obtain ⟨h1, h2⟩ := recordHookError_len r e hm hc
      have := ih (recordHookError r e) (by rw [h2]; exact hm) (by rw [h2]; exact h1)
      simpa [recordHookErrors, h2] using this
  · intro e
    simp only [recordHookError]
    split <;> split <;> rfl
  · intro hlen e
    have htrim : (r.log.length : Int) - (r.maxErr - 1) = 1 := by omega
    simp only [recordHookError, if_neg (by omega : ¬ r.maxErr ≤ 0),
      if_pos (by omega : r.maxErr ≤ (r.log.length : Int)), htrim,
      if_neg (by omega : ¬ (1 : Int) < 1)]
    rfl

/-- Witness for `hook_ring_bounded`: a capacity-2 ring at capacity. -/
theorem hook_ring_bounded_witness :
    ((recordHookErrors ⟨[5, 6], 3, 2⟩ [7, 8, 9]).log.length : Int) ≤ 2
    ∧ (∀ e, (recordHookError ⟨[5, 6], 3, 2⟩ e).count = 3 + 1)
    ∧ (((2 : Nat) : Int) = 2 → ∀ e,
        recordHookError ⟨[5, 6], 3, 2⟩ e = ⟨[5, 6].drop 1 ++ [e], 3 + 1, 2⟩) :=
  hook_ring_bounded ⟨[5, 6], 3, 2⟩ [7, 8, 9] (by decide) (by decide)

/-- Every `droppedCount.Add(1)` in `enqueue` is matched by exactly one
entry appended to the `droppedRecs` ledger: the two move in
lockstep. -/
theorem enqueue_dropped_ledger (s : LogState) (e : Nat) (o : EnqOracle) :
    (enqueue s e o).dropped + s.droppedRecs.length
      = s.dropped + (enqueue s e o).droppedRecs.length := by
  simp only [enqueue, recycleEntry, dropNew]
  by_cases hc : s.closed = true
  · simp [hc]
  · simp only [Bool.not_eq_true] at hc
    simp only [hc, Bool.false_eq_true, if_false]
    by_cases hnb : s.nonBlocking = true
    · simp only [hnb, Bool.not_true]
      by_cases hdo : s.dropOldest = true
      · simp only [hdo, if_true]
        by_cases hs1 : o.sendOk = true
        · simp [hs1]
        · simp only [Bool.not_eq_true] at hs1
          simp only [hs1, Bool.false_eq_true, if_false]
          cases hq : s.queue with
          | nil => simp; omega
          | cons a l =>
            by_cases hr : o.recvOk = true
            · by_cases hs2 : o.sendOk2 = true
              · simp [hr, hs2]; omega
              · simp only [Bool.not_eq_true] at hs2
                simp [hr, hs2]; omega
            · simp only [Bool.not_eq_true] at hr
              simp [hr]; omega
      · simp only [Bool.not_eq_true] at hdo
        simp only [hdo, Bool.false_eq_true, if_false]
        by_cases hs1 : o.sendOk = true
        · simp [hs1]
        · simp only [Bool.not_eq_true] at hs1
          simp [hs1]; omega
    · simp only [Bool.not_eq_true] at hnb
      simp [hnb]

/-- C1.  A record handed to `enqueue` before shutdown is either placed
in the queue exactly once (and never appears in the dropped ledger or
the pool), or accounted as dropped exactly once and returned to the
pool — the two alternatives exclude each other by their counts.  A
record handed to `enqueue` after shutdown began is recycled to the
pool untouched: queue and dropped counter are unchanged.  The dropped
counter moves in lockstep with the ledger (`enqueue_dropped_ledger`),
so a ledger count of one is one counter increment. -/
theorem enqueue_once_or_dropped (s : LogState) (e : Nat) (o : EnqOracle)
    (hq : s.queue.count e = 0) (hd : s.droppedRecs.count e = 0)
    (hp : s.pool.count e = 0) :
    (s.closed = false →
      (((enqueue s e o).queue.count e = 1
        ∧ (enqueue s e o).droppedRecs.count e = 0
        ∧ (enqueue s e o).pool.count e = 0)
      ∨ ((enqueue s e o).queue.count e = 0
        ∧ (enqueue s e o).droppedRecs.count e = 1
        ∧ (enqueue s e o).pool.count e = 1)))
    ∧ (s.closed = true →
        enqueue s e o = recycleEntry s e
        ∧ (recycleEntry s e).dropped = s.dropped
        ∧ (recycleEntry s e).queue = s.queue
        ∧ (recycleEntry s e).pool.count e = 1)
    ∧ ((enqueue s e o).dropped + s.droppedRecs.length
        = s.dropped + (enqueue s e o).droppedRecs.length) := by
  refine ⟨fun hcl => ?_, fun hcl => ?_, enqueue_dropped_ledger s e o⟩
  · simp only [enqueue, recycleEntry, dropNew, hcl, Bool.false_eq_true, if_false]
    by_cases hnb : s.nonBlocking = true
    · simp only [hnb, Bool.not_true]
      by_cases hdo : s.dropOldest = true
      · simp only [hdo, if_true]
        by_cases hs1 : o.sendOk = true
        · left; simp [hs1, List.count_append, hq, hd, hp]
        · simp only [Bool.not_eq_true] at hs1
          simp only [hs1, Bool.false_eq_true, if_false]
          cases hrq : s.queue with
          | nil => right; simp [List.count_append, hd, hp]
          | cons a l =>
            rw [hrq] at hq
            have hea : ¬ e = a := by
              intro hcontra
              subst hcontra
              simp [List.count_cons] at hq
            have hl : l.count e = 0 := by
              simp [List.count_cons, hea] at hq
              omega
            by_cases hr : o.recvOk = true
            · by_cases hs2 : o.sendOk2 = true
              · left
                simp [hr, hs2, List.count_append, List.count_cons, hea, hl, hd, hp]
              · simp only [Bool.not_eq_true] at hs2
                right
                simp [hr, hs2, List.count_append, List.count_cons, hea, hl, hd, hp]
            · simp only [Bool.not_eq_true] at hr
              right
              simp [hr, List.count_append, List.count_cons, hea, hl, hd, hp]
      · simp only [Bool.not_eq_true] at hdo
        simp only [hdo, Bool.false_eq_true, if_false]
        by_cases hs1 : o.sendOk = true
        · left; simp [hs1, List.count_append, hq, hd, hp]
        · simp only [Bool.not_eq_true] at hs1
          right
          simp [hs1, List.count_append, hq, hd, hp]
    · simp only [Bool.not_eq_true] at hnb
      left
      simp [hnb, List.count_append, hq, hd, hp]
  · have : enqueue s e o = recycleEntry s e := by simp [enqueue, hcl]
    refine ⟨this, rfl, rfl, ?_⟩
    simp [recycleEntry, List.count_append, hp]

/-- Witness for `enqueue_once_or_dropped` at a fresh record in the
initial state. -/
theorem enqueue_once_or_dropped_witness :
    ((initState false false).closed = false →
      (((enqueue (initState false false) 3 ⟨true, true, true⟩).queue.count 3 = 1
        ∧ (enqueue (initState false false) 3 ⟨true, true, true⟩).droppedRecs.count 3 = 0
        ∧ (enqueue (initState false false) 3 ⟨true, true, true⟩).pool.count 3 = 0)
      ∨ ((enqueue (initState false false) 3 ⟨true, true, true⟩).queue.count 3 = 0
        ∧ (enqueue (initState false false) 3 ⟨true, true, true⟩).droppedRecs.count 3 = 1
        ∧ (enqueue (initState false false) 3 ⟨true, true, true⟩).pool.count 3 = 1)))
    ∧ ((initState false false).closed = true →
        enqueue (initState false false) 3 ⟨true, true, true⟩
            = recycleEntry (initState false false) 3
        ∧ (recycleEntry (initState false false) 3).dropped = (initState false false).dropped
        ∧ (recycleEntry (initState false false) 3).queue = (initState false false).queue
        ∧ (recycleEntry (initState false false) 3).pool.count 3 = 1)
    ∧ ((enqueue (initState false false) 3 ⟨true, true, true⟩).dropped
          + (initState false false).droppedRecs.length
        = (initState false false).dropped
          + (enqueue (initState false false) 3 ⟨true, true, true⟩).droppedRecs.length) :=
  enqueue_once_or_dropped (initState false false) 3 ⟨true, true, true⟩
    (by decide) (by decide) (by decide)

/-- Membership in the extra-sink segment of `writeToAll`: exactly the
writes to present extra sinks. -/
theorem extras_calls_spec (extras : List (List Char × Bool)) (p : List Nat)
    (x : SinkRef × List Nat) :
    (x ∈ extrasWrites p extras
      ↔ ∃ n, x = (SinkRef.extraSink n, p) ∧ (n, true) ∈ extras) := by
  induction extras with
  | nil => simp [extrasWrites]
  | cons sk rest ih =>
    obtain ⟨n0, pres⟩ := sk
    cases pres with
    | false =>
      rw [extrasWrites]
      simp only [sinkWrites, Bool.false_eq_true, if_false, List.nil_append, ih]
      constructor
      · rintro ⟨n, hx, hmem⟩
        exact ⟨n, hx, List.mem_cons_of_mem _ hmem⟩
      · rintro ⟨n, hx, hmem⟩
        rcases List.mem_cons.mp hmem with heq | hmem2
        · simp at heq
        · exact ⟨n, hx, hmem2⟩
    | true =>
      rw [extrasWrites]
      simp only [sinkWrites, if_true, List.cons_append, List.nil_append]
      constructor
      · intro hx
        rcases List.mem_cons.mp hx with heq | hmem
        · exact ⟨n0, heq, List.mem_cons_self _ _⟩
        · obtain ⟨n, hx2, hmem2⟩ := ih.mp hmem
          exact ⟨n, hx2, List.mem_cons_of_mem _ hmem2⟩
      · rintro ⟨n, hx, hmem⟩
        rcases List.mem_cons.mp hmem with heq | hmem2
        · rw [hx]
          have hn : n = n0 := by
            have := congrArg Prod.fst heq
            simpa using this
          rw [hn]
          exact List.mem_cons_self _ _
        · exact List.mem_cons_of_mem _ (ih.mpr ⟨n, hx, hmem2⟩)

/-- C6.  For a record that formats successfully, the bytes go to the
primary error sink exactly when the severity is at least WARN and to
the primary non-error sink exactly otherwise (given both primary
writers are non-nil); the rotation sink, when installed, and every
present extra sink receive the bytes regardless of severity. -/
theorem routing_by_severity (o : Outputs) (lvl : Level) (b : List Nat)
    (hso : o.stdOut = true) (heo : o.errOut = true) :
    ((SinkRef.stderrSink, b) ∈ processEntry o lvl (some b) ↔ WARN ≤ lvl)
    ∧ ((SinkRef.stdoutSink, b) ∈ processEntry o lvl (some b) ↔ ¬ WARN ≤ lvl)
    ∧ (∀ n, o.rotation = some n →
        (SinkRef.rotationSink n, b) ∈ processEntry o lvl (some b))
    ∧ (∀ n, (n, true) ∈ o.extras →
        (SinkRef.extraSink n, b) ∈ processEntry o lvl (some b)) := by
  have hmem : ∀ x : SinkRef × List Nat,
      (x ∈ processEntry o lvl (some b) ↔
        x ∈ (if decide (WARN ≤ lvl) = true then sinkWrites o.errOut .stderrSink b
             else sinkWrites o.stdOut .stdoutSink b)
        ∨ x ∈ (match o.rotation with
               | some n => [(SinkRef.rotationSink n, b)]
               | none => ([] : List (SinkRef × List Nat)))
        ∨ x ∈ extrasWrites b o.extras) := by
    intro x
    simp [processEntry, writeToAll, List.mem_append, or_assoc]
  have hrotmem : ∀ n, o.rotation = some n →
      ∀ x : SinkRef × List Nat, x = (SinkRef.rotationSink n, b) →
      x ∈ processEntry o lvl (some b) := by
    intro n hrot x hx
    rw [hmem]
    right; left
    rw [hrot, hx]
    exact List.mem_singleton.mpr rfl
  have hextmem : ∀ n, (n, true) ∈ o.extras →
      (SinkRef.extraSink n, b) ∈ processEntry o lvl (some b) := by
    intro n hx
    rw [hmem]
    right; right
    exact (extras_calls_spec _ _ _).mpr ⟨n, rfl, hx⟩
  by_cases hw : WARN ≤ lvl
  · have hif : (if decide (WARN ≤ lvl) = true
          then sinkWrites o.errOut .stderrSink b
          else sinkWrites o.stdOut .stdoutSink b) = [(SinkRef.stderrSink, b)] := by
      rw [if_pos (decide_eq_true hw), heo]
      rfl
    refine ⟨?_, ?_, fun n hrot => hrotmem n hrot _ rfl, hextmem⟩
    · refine iff_of_true ?_ hw
      rw [hmem]
      left
      rw [hif]
      exact List.mem_singleton.mpr rfl
    · refine iff_of_false ?_ (not_not_intro hw)
      rw [hmem, hif]
      rintro (h1 | h2 | h3)
      · simp at h1
      · cases hrot : o.rotation with
        | none => rw [hrot] at h2; simp at h2
        | some n => rw [hrot] at h2; simp at h2
      · obtain ⟨n0, hx, _⟩ := (extras_calls_spec _ _ _).mp h3
        simp at hx
  · have hif : (if decide (WARN ≤ lvl) = true
          then sinkWrites o.errOut .stderrSink b
          else sinkWrites o.stdOut .stdoutSink b) = [(SinkRef.stdoutSink, b)] := by
      rw [if_neg (by simp [hw]), hso]
      rfl
    refine ⟨?_, ?_, fun n hrot => hrotmem n hrot _ rfl, hextmem⟩
    · refine iff_of_false ?_ hw
      rw [hmem, hif]
      rintro (h1 | h2 | h3)
      · simp at h1
      · cases hrot : o.rotation with
        | none => rw [hrot] at h2; simp at h2
        | some n => rw [hrot] at h2; simp at h2
      · obtain ⟨n0, hx, _⟩ := (extras_calls_spec _ _ _).mp h3
        simp at hx
    · refine iff_of_true ?_ hw
      rw [hmem, hif]
      left
      exact List.mem_singleton.mpr rfl

/-- Witness for `routing_by_severity`: an ERROR record with all sinks
installed. -/
theorem routing_by_severity_witness :
    ((SinkRef.stderrSink, [7]) ∈
        processEntry ⟨true, true, some ['r'], [(['e'], true)]⟩ ERROR (some [7])
      ↔ WARN ≤ ERROR)
    ∧ ((SinkRef.stdoutSink, [7]) ∈
        processEntry ⟨true, true, some ['r'], [(['e'], true)]⟩ ERROR (some [7])
      ↔ ¬ WARN ≤ ERROR)
    ∧ (∀ n, (⟨true, true, some ['r'], [(['e'], true)]⟩ : Outputs).rotation = some n →
        (SinkRef.rotationSink n, [7]) ∈
          processEntry ⟨true, true, some ['r'], [(['e'], true)]⟩ ERROR (some [7]))
    ∧ (∀ n, (n, true) ∈ (⟨true, true, some ['r'], [(['e'], true)]⟩ : Outputs).extras →
        (SinkRef.extraSink n, [7]) ∈
          processEntry ⟨true, true, some ['r'], [(['e'], true)]⟩ ERROR (some [7])) :=
  routing_by_severity ⟨true, true, some ['r'], [(['e'], true)]⟩ ERROR [7] rfl rfl


/-- The retry loop never runs more than `remaining + 1` attempts. -/
theorem safeWriteLoop_attempts_le (out : Nat → Bool) (d jit : Int) (expo : Bool)
    (now : Nat → Int) : ∀ rem att,
    (safeWriteLoop out d jit expo now rem att).attempts ≤ rem + 1 := by
  intro rem
  induction rem with
  | zero =>
    intro att
    simp only [safeWriteLoop]
    split <;> simp
  | succ r ih =>
    intro att
    simp only [safeWriteLoop]
    split
    · simp
    · have := ih (att + 1)
      simp only []
      omega

/-- The retry loop runs at least one attempt. -/
theorem safeWriteLoop_attempts_pos (out : Nat → Bool) (d jit : Int) (expo : Bool)
    (now : Nat → Int) : ∀ rem att,
    1 ≤ (safeWriteLoop out d jit expo now rem att).attempts := by
  intro rem
  cases rem with
  | zero =>
    intro att
    simp only [safeWriteLoop]
    split <;> simp
  | succ r =>
    intro att
    simp only [safeWriteLoop]
    split
    · simp
    · simp

/-- The retry loop stops right after the first successful write. -/
theorem safeWriteLoop_first_success (out : Nat → Bool) (d jit : Int) (expo : Bool)
    (now : Nat → Int) : ∀ rem att i, i ≤ rem →
    (∀ j, j < i → out (att + j) = false) → out (att + i) = true →
    (safeWriteLoop out d jit expo now rem att).attempts = i + 1 := by
  intro rem
  induction rem with
  | zero =>
    intro att i hi hfail hsucc
    interval_cases i
    simp only [Nat.add_zero] at hsucc
    simp [safeWriteLoop, hsucc]
  | succ r ih =>
    intro att i hi hfail hsucc
    cases i with
    | zero =>
      simp only [Nat.add_zero] at hsucc
      simp [safeWriteLoop, hsucc]
    | succ i0 =>
      have h0 : out att = false := by
        have := hfail 0 (Nat.succ_pos i0)
        simpa using this
      simp only [safeWriteLoop, h0, Bool.false_eq_true, if_false]
      have htail := ih (att + 1) i0 (by omega)
        (fun j hj => by
          have := hfail (j + 1) (by omega)
          rwa [show att + (j + 1) = att + 1 + j by omega] at this)
        (by rwa [show att + 1 + i0 = att + (i0 + 1) by omega])
      simp only [htail]

/-- When every allowed attempt fails, the loop uses them all. -/
theorem safeWriteLoop_all_fail (out : Nat → Bool) (d jit : Int) (expo : Bool)
    (now : Nat → Int) : ∀ rem att,
    (∀ j, j ≤ rem → out (att + j) = false) →
    (safeWriteLoop out d jit expo now rem att).attempts = rem + 1 := by
  intro rem
  induction rem with
  | zero =>
    intro att hfail
    have h0 : out att = false := by simpa using hfail 0 (Nat.le_refl 0)
    simp [safeWriteLoop, h0]
  | succ r ih =>
    intro att hfail
    have h0 : out att = false := by simpa using hfail 0 (Nat.zero_le _)
    simp only [safeWriteLoop, h0, Bool.false_eq_true, if_false]
    have htail := ih (att + 1) (fun j hj => by
      have := hfail (j + 1) (by omega)
      rwa [show att + (j + 1) = att + 1 + j by omega] at this)
    simp only [htail]

/-- Both error counters are incremented once per failed attempt and
only for failed attempts. -/
theorem safeWriteLoop_errIncs (out : Nat → Bool) (d jit : Int) (expo : Bool)
    (now : Nat → Int) : ∀ rem att,
    (safeWriteLoop out d jit expo now rem att).errIncs
      = (List.range (safeWriteLoop out d jit expo now rem att).attempts).countP
          (fun i => !out (att + i))
    ∧ (safeWriteLoop out d jit expo now rem att).sinkIncs
      = (safeWriteLoop out d jit expo now rem att).errIncs := by
  intro rem
  induction rem with
  | zero =>
    intro att
    by_cases h : out att = true
    · simp [safeWriteLoop, h, List.countP, List.countP.go]
    · simp only [Bool.not_eq_true] at h
      simp [safeWriteLoop, h, List.countP, List.countP.go]
  | succ r ih =>
    intro att
    by_cases h : out att = true
    · simp [safeWriteLoop, h, List.countP, List.countP.go]
    · simp only [Bool.not_eq_true] at h
      simp only [safeWriteLoop, h, Bool.false_eq_true, if_false]
      obtain ⟨ih1, ih2⟩ := ih (att + 1)
      have hpos := safeWriteLoop_attempts_pos out d jit expo now r (att + 1)
      constructor
      · have hrange : List.range ((safeWriteLoop out d jit expo now r (att + 1)).attempts + 1)
            = 0 :: (List.range (safeWriteLoop out d jit expo now r (att + 1)).attempts).map
                Nat.succ := List.range_succ_eq_map _
        simp only [hrange, List.countP_cons]
        rw [List.countP_map]
        have hcongr : (List.range (safeWriteLoop out d jit expo now r (att + 1)).attempts).countP
              ((fun i => !out (att + i)) ∘ Nat.succ)
            = (List.range (safeWriteLoop out d jit expo now r (att + 1)).attempts).countP
              (fun i => !out (att + 1 + i)) := by
          apply List.countP_congr
          intro x _
          simp only [Function.comp]
          rw [show att + Nat.succ x = att + 1 + x by omega]
        rw [hcongr, ← ih1]
        simp [h]
      · simp [ih2]

/-- The sleep between consecutive attempts: base backoff (doubled per
attempt when exponential) plus a jitter in `[0, jitter)` when jitter
is positive. -/
theorem safeWriteLoop_delays (out : Nat → Bool) (d jit : Int) (expo : Bool)
    (now : Nat → Int) : ∀ rem att,
    (safeWriteLoop out d jit expo now rem att).delays.length
      = (safeWriteLoop out d jit expo now rem att).attempts - 1
    ∧ (∀ i : Nat, i < (safeWriteLoop out d jit expo now rem att).delays.length →
        ∃ j, 0 ≤ j ∧ (0 < jit → j < jit) ∧ (jit ≤ 0 → j = 0)
          ∧ (safeWriteLoop out d jit expo now rem att).delays.get? i
              = some ((if expo then d * 2 ^ (att + i) else d) + j)) := by
  intro rem
  induction rem with
  | zero =>
    intro att
    constructor
    · simp only [safeWriteLoop]
      split <;> simp
    · intro i h
      exfalso
      revert h
      simp only [safeWriteLoop]
      split <;> simp
  | succ r ih =>
    intro att
    by_cases hsucc : out att = true
    · constructor
      · simp [safeWriteLoop, hsucc]
      · intro i h
        exfalso
        revert h
        simp [safeWriteLoop, hsucc]
    · simp only [Bool.not_eq_true] at hsucc
      obtain ⟨ih1, ih2⟩ := ih (att + 1)
      have hpos := safeWriteLoop_attempts_pos out d jit expo now r (att + 1)
      simp only [safeWriteLoop, hsucc, Bool.false_eq_true, if_false]
      constructor
      · simp only [List.length_cons]
        omega
      · intro i h
        cases i with
        | zero =>
          refine ⟨if 0 < jit then intAbs (now att) % jit else 0, ?_, ?_, ?_, ?_⟩
          · by_cases hj : 0 < jit
            · simp only [if_pos hj]
              exact Int.emod_nonneg _ (by omega)
            · simp [hj]
          · intro hj
            simp only [if_pos hj]
            exact Int.emod_lt_of_pos _ hj
          · intro hj
            simp [show ¬ 0 < jit by omega]
          · simp
        | succ i0 =>
          simp only [List.length_cons] at h
          have h0 : i0 < (safeWriteLoop out d jit expo now r (att + 1)).delays.length := by
            omega
          obtain ⟨j, hj0, hj1, hj2, hj3⟩ := ih2 i0 h0
          refine ⟨j, hj0, hj1, hj2, ?_⟩
          simp only [List.get?_cons_succ]
          rw [hj3, show att + 1 + i0 = att + (i0 + 1) by omega]

/-- C5 (amended: `backoff ≥ 0` added — `safeWrite` clamps a negative
backoff to zero, so a negative-backoff policy sleeps 0, not backoff).
For every sink, buffer and retry policy with `maxRetries ≥ 0` and
`backoff ≥ 0`: at most `1 + maxRetries` write attempts are made; the
call returns immediately after the first success and after the final
attempt otherwise; the global and per-sink error counters are bumped
exactly once per failed attempt; and the delay before retry `i` is
`backoff` (times `2 ^ i` when exponential) plus a jitter in
`[0, jitter)` when jitter is positive and nothing otherwise. -/
theorem safeWrite_retry_discipline (rp : RetryPolicy) (out : Nat → Bool)
    (now : Nat → Int) (hmr : 0 ≤ rp.maxRetries) (hb : 0 ≤ rp.backoff) :
    ((safeWrite rp false out now).attempts : Int) ≤ 1 + rp.maxRetries
    ∧ (∀ i : Nat, (i : Int) ≤ rp.maxRetries → (∀ j, j < i → out j = false) →
        out i = true → (safeWrite rp false out now).attempts = i + 1)
    ∧ ((∀ j : Nat, (j : Int) ≤ rp.maxRetries → out j = false) →
        ((safeWrite rp false out now).attempts : Int) = rp.maxRetries + 1)
    ∧ (safeWrite rp false out now).errIncs
        = (List.range (safeWrite rp false out now).attempts).countP (fun i => !out i)
    ∧ (safeWrite rp false out now).sinkIncs = (safeWrite rp false out now).errIncs
    ∧ (safeWrite rp false out now).delays.length
        = (safeWrite rp false out now).attempts - 1
    ∧ (∀ i : Nat, i < (safeWrite rp false out now).delays.length →
        ∃ j, 0 ≤ j ∧ (0 < rp.jitter → j < rp.jitter) ∧ (rp.jitter ≤ 0 → j = 0)
          ∧ (safeWrite rp false out now).delays.get? i
              = some ((if rp.exponential then rp.backoff * 2 ^ i else rp.backoff) + j)) := by
  have hsw : safeWrite rp false out now
      = safeWriteLoop out rp.backoff rp.jitter rp.exponential now rp.maxRetries.toNat 0 := by
    simp only [safeWrite, Bool.false_eq_true, if_false,
      if_neg (by omega : ¬ rp.maxRetries < 0), if_neg (by omega : ¬ rp.backoff < 0)]
  have htn : (rp.maxRetries.toNat : Int) = rp.maxRetries := Int.toNat_of_nonneg hmr
  rw [hsw]
  refine ⟨?_, ?_, ?_, ?_, ?_, ?_, ?_⟩
  · have := safeWriteLoop_attempts_le out rp.backoff rp.jitter rp.exponential now
      rp.maxRetries.toNat 0
    omega
  · intro i hi hfail hsucc
    exact safeWriteLoop_first_success out rp.backoff rp.jitter rp.exponential now
      rp.maxRetries.toNat 0 i (by omega)
      (fun j hj => by simpa using hfail j hj) (by simpa using hsucc)
  · intro hfail
    have := safeWriteLoop_all_fail out rp.backoff rp.jitter rp.exponential now
      rp.maxRetries.toNat 0 (fun j hj => by
        have hj2 : (j : Int) ≤ rp.maxRetries := by omega
        simpa using hfail j hj2)
    omega
  · have := (safeWriteLoop_errIncs out rp.backoff rp.jitter rp.exponential now
      rp.maxRetries.toNat 0).1
    simpa using this
  · exact (safeWriteLoop_errIncs out rp.backoff rp.jitter rp.exponential now
      rp.maxRetries.toNat 0).2
  · exact (safeWriteLoop_delays out rp.backoff rp.jitter rp.exponential now
      rp.maxRetries.toNat 0).1
  · intro i h
    obtain ⟨j, hj0, hj1, hj2, hj3⟩ := (safeWriteLoop_delays out rp.backoff rp.jitter
      rp.exponential now rp.maxRetries.toNat 0).2 i h
    refine ⟨j, hj0, hj1, hj2, ?_⟩
    simpa using hj3

/-- Witness for `safeWrite_retry_discipline`: two failing attempts
under an exponential policy. -/
theorem safeWrite_retry_discipline_witness :
    ((safeWrite ⟨1, 10, 0, true⟩ false (fun _ => false) (fun _ => 0)).attempts : Int)
      ≤ 1 + (1 : Int) :=
  (safeWrite_retry_discipline ⟨1, 10, 0, true⟩ (fun _ => false) (fun _ => 0)
    (by decide) (by decide)).1

/-- C5, the claim as frozen, refuted on a policy with a negative
backoff (allowed by the claim, which only requires `maxRetries ≥ 0`):
the code clamps the backoff to zero, so the first-retry delay is `0`,
not the policy backoff `-5`. -/
theorem safeWrite_negative_backoff_counterexample :
    (safeWrite ⟨1, -5, 0, false⟩ false (fun _ => false) (fun _ => 0)).delays = [0]
    ∧ ((0 : Int) ≠ -5) :=
  ⟨rfl, by decide⟩


/-- `maskMembers` rewrites each member pointwise: a key matching some
rule gets the looked-up replacement as a string value, the rest are
masked recursively. -/
theorem maskMembers_map (rules : List MaskFieldRule)
    (ms : List (List Char × JVal)) :
    maskMembers ms rules
      = ms.map fun kv =>
          if shouldMaskKeyWithRules kv.1 rules then
            (kv.1, JVal.str (getMaskReplacementForKeyWithRules kv.1 rules))
          else (kv.1, maskJSONValueWithRules kv.2 rules) := by
  induction ms with
  | nil => rfl
  | cons kv rest ih =>
    obtain ⟨k, v⟩ := kv
    rw [maskMembers, ih, List.map_cons]

/-- C4 (amended).  A field name is masked exactly when some rule lists
it; the replacement written into the masked object is the
`Replacement` of the first rule (in list order) whose key list
contains the name — verbatim, including the empty string; the
three-asterisk fallback is produced by the lookup only when no rule
matches, which cannot happen for a key that is being masked. -/
theorem field_rule_first_match (rules : List MaskFieldRule) (k : List Char) :
    shouldMaskKeyWithRules k rules
      = (rules.find? fun r => r.keys.any fun rk => rk == k).isSome
    ∧ getMaskReplacementForKeyWithRules k rules
      = (match rules.find? fun r => r.keys.any fun rk => rk == k with
         | some r => r.replacement
         | none => ['*', '*', '*'])
    ∧ (∀ ms, maskJSONValueWithRules (.obj ms) rules
        = .obj (ms.map fun kv =>
            if shouldMaskKeyWithRules kv.1 rules then
              (kv.1, JVal.str (getMaskReplacementForKeyWithRules kv.1 rules))
            else (kv.1, maskJSONValueWithRules kv.2 rules))) := by
  refine ⟨?_, ?_, ?_⟩
  · induction rules with
    | nil => rfl
    | cons r rest ih =>
      by_cases hr : (r.keys.any fun rk => rk == k) = true
      · simp [shouldMaskKeyWithRules, List.find?_cons, hr]
      · simp only [Bool.not_eq_true] at hr
        simp [shouldMaskKeyWithRules, List.find?_cons, hr] at ih ⊢
        exact ih
  · induction rules with
    | nil => rfl
    | cons r rest ih =>
      by_cases hr : (r.keys.any fun rk => rk == k) = true
      · simp [getMaskReplacementForKeyWithRules, List.find?_cons, hr]
      · simp only [Bool.not_eq_true] at hr
        simp only [getMaskReplacementForKeyWithRules, List.find?_cons, hr,
          Bool.false_eq_true, if_false]
        exact ih
  · intro ms
    rw [maskJSONValueWithRules, maskMembers_map]

/-- C4, the frozen second conjunct refuted: a matching rule whose
`Replacement` field is empty masks the value with the empty string,
not with the three-asterisk default. -/
theorem field_rule_empty_replacement_counterexample :
    applyMasking [] [⟨["password".toList], []⟩]
        "\x7b\"password\":\"secret\"\x7d".toList true
      = "\x7b\"password\":\"\"\x7d".toList
    ∧ "\x7b\"password\":\"\"\x7d".toList ≠ "\x7b\"password\":\"***\"\x7d".toList :=
  ⟨by decide, by decide⟩


/-- A digit is none of the JSON structural or special characters. -/
theorem digit_not_special (c : Char) (h : isDigitChar c = true) :
    isWsChar c = false ∧ c ≠ 'n' ∧ c ≠ 't' ∧ c ≠ 'f' ∧ c ≠ '"' ∧ c ≠ '['
    ∧ c ≠ '{' ∧ c ≠ ']' ∧ c ≠ '}' ∧ c ≠ ',' ∧ c ≠ ':' ∧ c ≠ '-' ∧ c ≠ '+'
    ∧ c ≠ '.' ∧ c ≠ 'e' ∧ c ≠ 'E' ∧ c ≠ '\\' := by
  refine ⟨?_, ?_, ?_, ?_, ?_, ?_, ?_, ?_, ?_, ?_, ?_, ?_, ?_, ?_, ?_, ?_, ?_⟩
  · by_contra hws
    simp only [Bool.not_eq_false] at hws
    simp only [isWsChar, Bool.or_eq_true, beq_iff_eq] at hws
    rcases hws with ((rfl | rfl) | rfl) | rfl <;> exact absurd h (by decide)
  all_goals intro hcc
  all_goals rw [hcc] at h
  all_goals exact absurd h (by decide)

/-- `digitRun` splits its input into the longest digit prefix and a
remainder that does not start with a digit. -/
theorem digitRun_spec : ∀ cs : List Char,
    cs = (digitRun cs).1 ++ (digitRun cs).2
    ∧ (∀ c ∈ (digitRun cs).1, isDigitChar c = true)
    ∧ (∀ c t, (digitRun cs).2 = c :: t → isDigitChar c = false) := by
  intro cs
  induction cs with
  | nil => exact ⟨rfl, by simp [digitRun], by simp [digitRun]⟩
  | cons c cs ih =>
    by_cases hc : isDigitChar c = true
    · obtain ⟨ih1, ih2, ih3⟩ := ih
      refine ⟨?_, ?_, ?_⟩
      · simp only [digitRun, hc, if_true, List.cons_append]
        exact congrArg (c :: ·) ih1
      · intro d hd
        simp only [digitRun, hc, if_true] at hd
        rcases List.mem_cons.mp hd with rfl | hd2
        · exact hc
        · exact ih2 d hd2
      · intro d t hdt
        apply ih3
        simpa [digitRun, hc] using hdt
    · simp only [Bool.not_eq_true] at hc
      refine ⟨by simp [digitRun, hc], by simp [digitRun, hc], ?_⟩
      intro d t hdt
      simp only [digitRun, hc, Bool.false_eq_true, if_false] at hdt
      obtain ⟨rfl, -⟩ := List.cons.injEq .. ▸ hdt
      exact hc

/-- `digitRun` consumes exactly a digit run that is followed by a
non-digit (or nothing). -/
theorem digitRun_append (ds rest : List Char)
    (hds : ∀ c ∈ ds, isDigitChar c = true)
    (hrest : ∀ c t, rest = c :: t → isDigitChar c = false) :
    digitRun (ds ++ rest) = (ds, rest) := by
  induction ds with
  | nil =>
    cases rest with
    | nil => rfl
    | cons c t => simp [digitRun, hrest c t rfl]
  | cons d ds ih =>
    have hd : isDigitChar d = true := hds d (List.mem_cons_self _ _)
    have ih2 := ih fun c hc => hds c (List.mem_cons_of_mem _ hc)
    simp [digitRun, hd, ih2]

/-- `fracPart` is empty on input that does not start with a dot. -/
theorem fracPart_empty (cs : List Char)
    (h : ∀ c t, cs = c :: t → c ≠ '.') :
    fracPart cs = some ([], cs) := by
  cases cs with
  | nil => rfl
  | cons c t => simp [fracPart, h c t rfl]

/-- `fracPart` consumes exactly a rendered fraction. -/
theorem fracPart_dot (ds rest : List Char) (hne : ds ≠ [])
    (hds : ∀ c ∈ ds, isDigitChar c = true)
    (hrest : ∀ c t, rest = c :: t → isDigitChar c = false) :
    fracPart ('.' :: (ds ++ rest)) = some ('.' :: ds, rest) := by
  have hdr := digitRun_append ds rest hds hrest
  cases ds with
  | nil => exact absurd rfl hne
  | cons d ds2 =>
    rw [List.cons_append] at hdr
    simp [fracPart, hdr]

/-- `expPart` is empty on input that does not start with an exponent
marker. -/
theorem expPart_empty (cs : List Char)
    (h : ∀ c t, cs = c :: t → ¬(c = 'e' ∨ c = 'E')) :
    expPart cs = some ([], cs) := by
  cases cs with
  | nil => rfl
  | cons c t => simp [expPart, h c t rfl]

/-- `expPart` consumes exactly a rendered exponent. -/
theorem expPart_exp (e0 : Char) (sg ds rest : List Char)
    (he : e0 = 'e' ∨ e0 = 'E')
    (hsg : sg = [] ∨ sg = ['+'] ∨ sg = ['-'])
    (hne : ds ≠ []) (hds : ∀ c ∈ ds, isDigitChar c = true)
    (hrest : ∀ c t, rest = c :: t → isDigitChar c = false) :
    expPart (e0 :: (sg ++ ds ++ rest)) = some (e0 :: (sg ++ ds), rest) := by
  have hdr := digitRun_append ds rest hds hrest
  rcases hsg with rfl | rfl | rfl
  · cases ds with
    | nil => exact absurd rfl hne
    | cons d ds2 =>
      have hd : isDigitChar d = true := hds d (List.mem_cons_self _ _)
      obtain ⟨-, -, -, -, -, -, -, -, -, -, -, hnm, hnp, -, -, -, -⟩ :=
        digit_not_special d hd
      rw [List.cons_append] at hdr
      simp [expPart, he, hnp, hnm, hdr]
  · simp [expPart, he, hdr]
  · simp [expPart, he, hdr]

/-- Inversion for `fracPart`. -/
theorem fracPart_inv (cs fr rest : List Char)
    (h : fracPart cs = some (fr, rest)) :
    (fr = [] ∧ rest = cs)
    ∨ (∃ ds2, fr = '.' :: ds2 ∧ ds2 ≠ []
        ∧ (∀ c ∈ ds2, isDigitChar c = true)) := by
  cases cs with
  | nil =>
    left
    simp only [fracPart, Option.some.injEq, Prod.mk.injEq] at h
    exact ⟨h.1.symm, h.2.symm⟩
  | cons c t =>
    by_cases hc : c = '.'
    · subst hc
      right
      obtain ⟨hsp, hds, -⟩ := digitRun_spec t
      simp only [fracPart, if_pos rfl, if_true] at h
      cases hdr : digitRun t with
      | mk ds1 rs1 =>
        rw [hdr] at h hsp hds
        cases ds1 with
        | nil => simp at h
        | cons d0 ds0 =>
          simp only [Option.some.injEq, Prod.mk.injEq] at h
          exact ⟨d0 :: ds0, h.1.symm, by simp, hds⟩
    · left
      simp only [fracPart, if_neg hc, Option.some.injEq, Prod.mk.injEq] at h
      exact ⟨h.1.symm, h.2.symm⟩

/-- Inversion for `expPart`. -/
theorem expPart_inv (cs ex rest : List Char)
    (h : expPart cs = some (ex, rest)) :
    (ex = [] ∧ rest = cs)
    ∨ (∃ e0 sg ds3, (e0 = 'e' ∨ e0 = 'E')
        ∧ (sg = [] ∨ sg = ['+'] ∨ sg = ['-'])
        ∧ ds3 ≠ [] ∧ (∀ c ∈ ds3, isDigitChar c = true)
        ∧ ex = e0 :: (sg ++ ds3)) := by
  cases cs with
  | nil =>
    left
    simp only [expPart, Option.some.injEq, Prod.mk.injEq] at h
    exact ⟨h.1.symm, h.2.symm⟩
  | cons c t =>
    by_cases hc : c = 'e' ∨ c = 'E'
    · right
      simp only [expPart, if_pos hc] at h
      cases t with
      | nil => simp at h
      | cons c1 r1 =>
        by_cases hp : c1 = '+'
        · subst hp
          simp only [if_pos rfl, if_true] at h
          obtain ⟨-, hds, -⟩ := digitRun_spec r1
          cases hdr : digitRun r1 with
          | mk ds1 rs1 =>
            rw [hdr] at h hds
            cases ds1 with
            | nil => simp at h
            | cons d0 ds0 =>
              simp only [Option.some.injEq, Prod.mk.injEq] at h
              exact ⟨c, ['+'], d0 :: ds0, hc, Or.inr (Or.inl rfl), by simp,
                hds, h.1.symm⟩
        · by_cases hm : c1 = '-'
          · subst hm
            simp only [if_neg (by decide : ¬ ('-' : Char) = '+'), if_pos rfl,
              if_true] at h
            obtain ⟨-, hds, -⟩ := digitRun_spec r1
            cases hdr : digitRun r1 with
            | mk ds1 rs1 =>
              rw [hdr] at h hds
              cases ds1 with
              | nil => simp at h
              | cons d0 ds0 =>
                simp only [Option.some.injEq, Prod.mk.injEq] at h
                exact ⟨c, ['-'], d0 :: ds0, hc, Or.inr (Or.inr rfl), by simp,
                  hds, h.1.symm⟩
          · simp only [if_neg hp, if_neg hm] at h
            obtain ⟨-, hds, -⟩ := digitRun_spec (c1 :: r1)
            cases hdr : digitRun (c1 :: r1) with
            | mk ds1 rs1 =>
              rw [hdr] at h hds
              cases ds1 with
              | nil => simp at h
              | cons d0 ds0 =>
                simp only [Option.some.injEq, Prod.mk.injEq] at h
                exact ⟨c, [], d0 :: ds0, hc, Or.inl rfl, by simp, hds,
                  by rw [← h.1]; simp⟩
    · left
      simp only [expPart, if_neg hc, Option.some.injEq, Prod.mk.injEq] at h
      exact ⟨h.1.symm, h.2.symm⟩

/-- Every token `scanNum` accepts has the JSON number shape. -/
theorem scanNum_goodNum (cs tok rest : List Char)
    (h : scanNum cs = some (tok, rest)) : GoodNum tok := by
  cases cs with
  | nil => simp [scanNum, digitRun] at h
  | cons c r =>
    by_cases hc : c = '-'
    · subst hc
      simp only [scanNum, if_pos rfl, if_true] at h
      obtain ⟨-, hds, -⟩ := digitRun_spec r
      cases hdr : digitRun r with
      | mk ds1 rs1 =>
        rw [hdr] at h hds
        cases ds1 with
        | nil => simp at h
        | cons d0 ds0 =>
          dsimp only at h
          by_cases hz : (d0 :: ds0).head? = some '0' ∧ (d0 :: ds0).length ≠ 1
          · rw [if_pos hz] at h
            exact Option.noConfusion h
          · simp only [if_neg hz] at h
            cases hfp : fracPart rs1 with
            | none => rw [hfp] at h; simp at h
            | some p1 =>
              obtain ⟨fr, cs3⟩ := p1
              rw [hfp] at h
              simp only [] at h
              cases hep : expPart cs3 with
              | none => rw [hep] at h; simp at h
              | some p2 =>
                obtain ⟨ex, cs4⟩ := p2
                rw [hep] at h
                simp only [Option.some.injEq, Prod.mk.injEq] at h
                have hfr := fracPart_inv rs1 fr cs3 hfp
                have hex := expPart_inv cs3 ex cs4 hep
                refine ⟨['-'], d0 :: ds0, fr, ex, h.1.symm, Or.inr rfl,
                  by simp, hds, hz, ?_, ?_⟩
                · rcases hfr with ⟨hfr0, -⟩ | ⟨ds2, hfr1, hfr2, hfr3⟩
                  · exact Or.inl hfr0
                  · exact Or.inr ⟨ds2, hfr1, hfr2, hfr3⟩
                · rcases hex with ⟨hex0, -⟩ | hex1
                  · exact Or.inl hex0
                  · exact Or.inr hex1
    · simp only [scanNum, if_neg hc] at h
      obtain ⟨-, hds, -⟩ := digitRun_spec (c :: r)
      cases hdr : digitRun (c :: r) with
      | mk ds1 rs1 =>
        rw [hdr] at h hds
        cases ds1 with
        | nil => simp at h
        | cons d0 ds0 =>
          dsimp only at h
          by_cases hz : (d0 :: ds0).head? = some '0' ∧ (d0 :: ds0).length ≠ 1
          · rw [if_pos hz] at h
            exact Option.noConfusion h
          · simp only [if_neg hz] at h
            cases hfp : fracPart rs1 with
            | none => rw [hfp] at h; simp at h
            | some p1 =>
              obtain ⟨fr, cs3⟩ := p1
              rw [hfp] at h
              simp only [] at h
              cases hep : expPart cs3 with
              | none => rw [hep] at h; simp at h
              | some p2 =>
                obtain ⟨ex, cs4⟩ := p2
                rw [hep] at h
                simp only [Option.some.injEq, Prod.mk.injEq] at h
                have hfr := fracPart_inv rs1 fr cs3 hfp
                have hex := expPart_inv cs3 ex cs4 hep
                refine ⟨[], d0 :: ds0, fr, ex, by simp [← h.1],
                  Or.inl rfl, by simp, hds, hz, ?_, ?_⟩
                · rcases hfr with ⟨hfr0, -⟩ | ⟨ds2, hfr1, hfr2, hfr3⟩
                  · exact Or.inl hfr0
                  · exact Or.inr ⟨ds2, hfr1, hfr2, hfr3⟩
                · rcases hex with ⟨hex0, -⟩ | hex1
                  · exact Or.inl hex0
                  · exact Or.inr hex1


/-- A number-shaped token rescans to itself before any continuation
that cannot extend a number. -/
theorem goodNum_replay (tok : List Char) (hg : GoodNum tok) :
    ∀ r, numStop r → scanNum (tok ++ r) = some (tok, r) := by
  obtain ⟨sgn, ds, fr, ex, htok, hsgn, hne, hds, hz, hfr, hex⟩ := hg
  intro r hr
  have hR : ∀ c t, r = c :: t → isDigitChar c = false := by
    intro c t hct
    rw [hct] at hr
    unfold numStop at hr
    push_neg at hr
    simpa using hr.1
  have hRdot : ∀ c t, r = c :: t → c ≠ '.' := by
    intro c t hct
    rw [hct] at hr
    unfold numStop at hr
    push_neg at hr
    exact hr.2.1
  have hRexp : ∀ c t, r = c :: t → ¬(c = 'e' ∨ c = 'E') := by
    intro c t hct
    rw [hct] at hr
    unfold numStop at hr
    push_neg at hr
    rintro (hc | hc)
    · exact hr.2.2.1 hc
    · exact hr.2.2.2 hc
  have hExR : ∀ c t, ex ++ r = c :: t → isDigitChar c = false := by
    intro c t hct
    rcases hex with rfl | ⟨e0, sg, ds3, he0, hsg, hne3, hds3, rfl⟩
    · exact hR c t (by simpa using hct)
    · rw [List.cons_append] at hct
      obtain ⟨rfl, -⟩ := List.cons.injEq .. ▸ hct
      rcases he0 with rfl | rfl <;> decide
  have hFrExR : ∀ c t, fr ++ (ex ++ r) = c :: t → isDigitChar c = false := by
    intro c t hct
    rcases hfr with rfl | ⟨ds2, rfl, hne2, hds2⟩
    · exact hExR c t (by simpa using hct)
    · rw [List.cons_append] at hct
      obtain ⟨rfl, -⟩ := List.cons.injEq .. ▸ hct
      decide
  have hExRdot : ∀ c t, ex ++ r = c :: t → c ≠ '.' := by
    intro c t hct
    rcases hex with rfl | ⟨e0, sg, ds3, he0, hsg, hne3, hds3, rfl⟩
    · exact hRdot c t (by simpa using hct)
    · rw [List.cons_append] at hct
      obtain ⟨rfl, -⟩ := List.cons.injEq .. ▸ hct
      rcases he0 with rfl | rfl <;> decide
  have hRexpE : ∀ c t, r = c :: t → ¬(c = 'e' ∨ c = 'E') := hRexp
  have hfracStep : fracPart (fr ++ (ex ++ r)) = some (fr, ex ++ r) := by
    rcases hfr with rfl | ⟨ds2, rfl, hne2, hds2⟩
    · rw [List.nil_append]
      exact fracPart_empty _ hExRdot
    · rw [List.cons_append]
      exact fracPart_dot ds2 (ex ++ r) hne2 hds2 hExR
  have hexpStep : expPart (ex ++ r) = some (ex, r) := by
    rcases hex with rfl | ⟨e0, sg, ds3, he0, hsg, hne3, hds3, rfl⟩
    · rw [List.nil_append]
      exact expPart_empty _ hRexpE
    · rw [List.cons_append]
      exact expPart_exp e0 sg ds3 r he0 hsg hne3 hds3 hR
  have hdigits : digitRun (ds ++ (fr ++ (ex ++ r))) = (ds, fr ++ (ex ++ r)) :=
    digitRun_append ds _ hds hFrExR
  rcases hsgn with rfl | rfl
  · -- no sign: the token starts with its first digit
    cases hds0 : ds with
    | nil => exact absurd hds0 hne
    | cons d0 ds0 =>
      subst hds0
      have hd0 : isDigitChar d0 = true := hds d0 (List.mem_cons_self _ _)
      obtain ⟨-, -, -, -, -, -, -, -, -, -, -, hnm, -, -, -, -, -⟩ :=
        digit_not_special d0 hd0
      have harg : tok ++ r = d0 :: (ds0 ++ (fr ++ (ex ++ r))) := by
        rw [htok]
        simp [List.append_assoc]
      rw [harg]
      rw [List.cons_append] at hdigits
      simp only [scanNum, if_neg hnm, hdigits, if_neg hz, hfracStep, hexpStep]
      simp [htok, List.append_assoc]
  · -- leading minus
    cases hds0 : ds with
    | nil => exact absurd hds0 hne
    | cons d0 ds0 =>
      subst hds0
      have harg : tok ++ r = '-' :: (d0 :: (ds0 ++ (fr ++ (ex ++ r)))) := by
        rw [htok]
        simp [List.append_assoc]
      rw [harg]
      rw [List.cons_append] at hdigits
      simp only [scanNum, if_pos rfl, if_true, hdigits, if_neg hz, hfracStep,
        hexpStep]
      simp [htok, List.append_assoc]


theorem hexDigitVal_hexDigitChar (n : Nat) (h : n < 16) :
    hexDigitVal (hexDigitChar n) = some n := by
  interval_cases n <;> decide

/-- The hex quad written for a control character decodes to it. -/
theorem hexQuad_control (v : Nat) (h : v < 0x100) :
    hexQuad '0' '0' (hexDigitChar (v / 16)) (hexDigitChar (v % 16)) = some v := by
  have h1 : v / 16 < 16 := by omega
  have h2 : v % 16 < 16 := Nat.mod_lt _ (by omega)
  have h0 : hexDigitVal '0' = some 0 := by decide
  have hv : ((0 * 16 + 0) * 16 + v / 16) * 16 + v % 16 = v := by omega
  simp only [hexQuad, h0, hexDigitVal_hexDigitChar _ h1,
    hexDigitVal_hexDigitChar _ h2, Option.bind_eq_bind, Option.some_bind, hv]
  rfl

/-- Every escape is at least one character long. -/
theorem escapeChar_len_pos (c : Char) : 1 ≤ (escapeChar c).length := by
  unfold escapeChar
  split_ifs <;> simp

/-- An escaped string is at least as long as the original. -/
theorem flatMap_escapeChar_len (s : List Char) :
    s.length ≤ (s.flatMap escapeChar).length := by
  induction s with
  | nil => simp
  | cons c cs ih =>
    rw [List.flatMap_cons, List.length_append, List.length_cons]
    have := escapeChar_len_pos c
    omega

/-- Decoding one escaped character recovers it. -/
theorem parseStrBodyF_escape (c : Char) (fuel : Nat) (rest : List Char) :
    parseStrBodyF (fuel + 1) (escapeChar c ++ rest)
      = (parseStrBodyF fuel rest).map fun p => (c :: p.1, p.2) := by
  by_cases h1 : c = '"'
  · subst h1; rfl
  by_cases h2 : c = '\\'
  · subst h2; rfl
  by_cases h3 : c = '\n'
  · subst h3; rfl
  by_cases h4 : c = '\r'
  · subst h4; rfl
  by_cases h5 : c = '\t'
  · subst h5; rfl
  by_cases h6 : c.toNat < 0x20
  · have hesc : escapeChar c =
        ['\\', 'u', '0', '0', hexDigitChar (c.toNat / 16), hexDigitChar (c.toNat % 16)] := by
      unfold escapeChar
      rw [if_neg h1, if_neg h2, if_neg h3, if_neg h4, if_neg h5, if_pos h6]
    rw [hesc]
    have hq := hexQuad_control c.toNat (by omega)
    simp only [List.cons_append, List.nil_append, parseStrBodyF, hq]
    rw [if_neg (by simp only [Bool.and_eq_true, decide_eq_true_eq]; omega),
      if_neg (by simp only [Bool.and_eq_true, decide_eq_true_eq]; omega)]
    rw [Char.ofNat_toNat]
  by_cases h7 : c.toNat = 0x2028
  · have hesc : escapeChar c = ['\\', 'u', '2', '0', '2', '8'] := by
      unfold escapeChar
      rw [if_neg h1, if_neg h2, if_neg h3, if_neg h4, if_neg h5, if_neg h6,
        if_pos h7]
    rw [hesc]
    have hq : hexQuad '2' '0' '2' '8' = some 0x2028 := by decide
    simp only [List.cons_append, List.nil_append, parseStrBodyF, hq]
    rw [if_neg (by simp only [Bool.and_eq_true, decide_eq_true_eq]; omega),
      if_neg (by simp only [Bool.and_eq_true, decide_eq_true_eq]; omega)]
    have hc : Char.ofNat 0x2028 = c := by
      rw [← h7, Char.ofNat_toNat]
    rw [hc]
  by_cases h8 : c.toNat = 0x2029
  · have hesc : escapeChar c = ['\\', 'u', '2', '0', '2', '9'] := by
      unfold escapeChar
      rw [if_neg h1, if_neg h2, if_neg h3, if_neg h4, if_neg h5, if_neg h6,
        if_neg h7, if_pos h8]
    rw [hesc]
    have hq : hexQuad '2' '0' '2' '9' = some 0x2029 := by decide
    simp only [List.cons_append, List.nil_append, parseStrBodyF, hq]
    rw [if_neg (by simp only [Bool.and_eq_true, decide_eq_true_eq]; omega),
      if_neg (by simp only [Bool.and_eq_true, decide_eq_true_eq]; omega)]
    have hc : Char.ofNat 0x2029 = c := by
      rw [← h8, Char.ofNat_toNat]
    rw [hc]
  · have hesc : escapeChar c = [c] := by
      unfold escapeChar
      rw [if_neg h1, if_neg h2, if_neg h3, if_neg h4, if_neg h5, if_neg h6,
        if_neg h7, if_neg h8]
    rw [hesc, List.cons_append, List.nil_append, parseStrBodyF.eq_def]
    simp only []
    split
    · rename_i heq
      obtain ⟨h9, -⟩ := List.cons.injEq .. ▸ heq
      exact absurd h9 h1
    · rename_i heq
      obtain ⟨h9, -⟩ := List.cons.injEq .. ▸ heq
      exact absurd h9 h2
    · rename_i heq
      obtain ⟨h9, -⟩ := List.cons.injEq .. ▸ heq
      exact absurd h9 h2
    · rename_i heq
      obtain ⟨h9, h10⟩ := List.cons.injEq .. ▸ heq
      subst h9
      subst h10
      rw [if_neg h6]
    · rename_i heq
      exact absurd heq (by simp)


/-- Decoding an escaped string body recovers the string exactly. -/
theorem parseStrBodyF_render (s : List Char) : ∀ (fuel : Nat) (rest : List Char),
    s.length + 1 ≤ fuel →
    parseStrBodyF fuel (s.flatMap escapeChar ++ '"' :: rest) = some (s, rest) := by
  induction s with
  | nil =>
    intro fuel rest hf
    cases fuel with
    | zero => omega
    | succ f => rfl
  | cons c cs ih =>
    intro fuel rest hf
    cases fuel with
    | zero => omega
    | succ f =>
      rw [List.flatMap_cons, List.append_assoc, parseStrBodyF_escape,
        ih f rest (by simpa using Nat.lt_succ_iff.mp hf)]
      rfl

/-- The wrapper `parseStrBody` on a rendered string body. -/
theorem parseStrBody_render (s : List Char) (rest : List Char) :
    parseStrBody (s.flatMap escapeChar ++ '"' :: rest) = some (s, rest) := by
  apply parseStrBodyF_render
  have h1 := flatMap_escapeChar_len s
  simp only [List.length_append, List.length_cons]
  omega

/-- Elements of an insertion are the new member or old members. -/
theorem insertKV_mem (k : List Char) (v : JVal) :
    ∀ acc kv, kv ∈ insertKV k v acc → kv = (k, v) ∨ kv ∈ acc := by
  intro acc
  induction acc with
  | nil =>
    intro kv h
    simp only [insertKV] at h
    exact Or.inl (List.mem_singleton.mp h)
  | cons kv0 rest ih =>
    intro kv h
    obtain ⟨k0, v0⟩ := kv0
    simp only [insertKV] at h
    by_cases he : k = k0
    · rw [if_pos he] at h
      rcases List.mem_cons.mp h with rfl | h2
      · exact Or.inl rfl
      · exact Or.inr (List.mem_cons_of_mem _ h2)
    · rw [if_neg he] at h
      by_cases hlt : k < k0
      · rw [if_pos hlt] at h
        rcases List.mem_cons.mp h with rfl | h2
        · exact Or.inl rfl
        · exact Or.inr h2
      · rw [if_neg hlt] at h
        rcases List.mem_cons.mp h with rfl | h2
        · exact Or.inr (List.mem_cons_self _ _)
        · rcases ih kv h2 with h3 | h3
          · exact Or.inl h3
          · exact Or.inr (List.mem_cons_of_mem _ h3)

/-- Insertion into a key-sorted association list stays key-sorted. -/
theorem insertKV_sorted (k : List Char) (v : JVal) :
    ∀ acc, sortedKeys acc → sortedKeys (insertKV k v acc) := by
  intro acc
  induction acc with
  | nil =>
    intro h
    simp [insertKV, sortedKeys]
  | cons kv0 rest ih =>
    intro h
    obtain ⟨k0, v0⟩ := kv0
    obtain ⟨hhead, htail⟩ := List.pairwise_cons.mp h
    simp only [insertKV]
    by_cases he : k = k0
    · rw [if_pos he]
      exact List.pairwise_cons.mpr ⟨fun b hb => he ▸ hhead b hb, htail⟩
    · rw [if_neg he]
      by_cases hlt : k < k0
      · rw [if_pos hlt]
        refine List.pairwise_cons.mpr ⟨?_, h⟩
        intro b hb
        rcases List.mem_cons.mp hb with rfl | hb2
        · exact hlt
        · exact lt_trans hlt (hhead b hb2)
      · rw [if_neg hlt]
        refine List.pairwise_cons.mpr ⟨?_, ih htail⟩
        intro b hb
        rcases insertKV_mem k v rest b hb with rfl | hb2
        · rcases lt_trichotomy k k0 with h3 | h3 | h3
          · exact absurd h3 hlt
          · exact absurd h3 he
          · exact h3
        · exact hhead b hb2

/-- Insertion preserves well-formedness of the member values. -/
theorem insertKV_wfMembers (k : List Char) (v : JVal) (hv : wfVal v) :
    ∀ acc, wfMembers acc → wfMembers (insertKV k v acc) := by
  intro acc
  induction acc with
  | nil =>
    intro h
    simpa [insertKV, wfMembers] using hv
  | cons kv0 rest ih =>
    intro h
    obtain ⟨k0, v0⟩ := kv0
    rw [wfMembers] at h
    simp only [insertKV]
    by_cases he : k = k0
    · rw [if_pos he]
      exact ⟨hv, h.2⟩
    · rw [if_neg he]
      by_cases hlt : k < k0
      · rw [if_pos hlt]
        exact ⟨hv, h⟩
      · rw [if_neg hlt]
        exact ⟨h.1, ih h.2⟩

/-- Inserting a key greater than every present key appends. -/
theorem insertKV_append (k : List Char) (v : JVal) :
    ∀ acc, (∀ kv ∈ acc, kv.1 < k) → insertKV k v acc = acc ++ [(k, v)] := by
  intro acc
  induction acc with
  | nil => intro _; rfl
  | cons kv0 rest ih =>
    intro h
    obtain ⟨k0, v0⟩ := kv0
    have hk0 : k0 < k := h (k0, v0) (List.mem_cons_self _ _)
    simp only [insertKV]
    rw [if_neg (ne_of_gt hk0), if_neg (lt_asymm hk0),
      ih fun kv hkv => h kv (List.mem_cons_of_mem _ hkv)]
    rfl


mutual

/-- Every value the decoder produces is well-formed. -/
theorem parseVal_wf : ∀ (fuel : Nat) (cs : List Char) (v : JVal) (rest : List Char),
    parseVal fuel cs = some (v, rest) → wfVal v
  | 0, _, _, _, h => by simp [parseVal] at h
  | fuel + 1, cs, v, rest, h => by
    simp only [parseVal] at h
    split at h
    · cases h
      simp [wfVal]
    · cases h
      simp [wfVal]
    · cases h
      simp [wfVal]
    · split at h
      · cases h
        simp [wfVal]
      · exact Option.noConfusion h
    · split at h
      · cases h
        simp [wfVal, wfItems, sortedKeys]
      · split at h
        · rename_i es r1 heq
          cases h
          rw [wfVal]
          exact parseElems_wf fuel _ _ _ heq
        · exact Option.noConfusion h
    · split at h
      · cases h
        simp [wfVal, wfMembers, sortedKeys]
      · split at h
        · rename_i ms r1 heq
          cases h
          rw [wfVal]
          exact parseMembers_wf fuel [] _ _ _ (by simp [sortedKeys])
            (by simp [wfMembers]) heq
        · exact Option.noConfusion h
    · split at h
      · split at h
        · rename_i lit r1 heq
          cases h
          rw [wfVal]
          exact scanNum_goodNum _ _ _ heq
        · exact Option.noConfusion h
      · exact Option.noConfusion h
    · exact Option.noConfusion h

/-- Every element list the decoder produces is well-formed. -/
theorem parseElems_wf : ∀ (fuel : Nat) (cs : List Char) (vs : List JVal)
    (rest : List Char), parseElems fuel cs = some (vs, rest) → wfItems vs
  | 0, _, _, _, h => by simp [parseElems] at h
  | fuel + 1, cs, vs, rest, h => by
    simp only [parseElems] at h
    split at h
    · exact Option.noConfusion h
    · rename_i v0 r0 heq0
      split at h
      · split at h
        · rename_i vs1 r1 heq1
          cases h
          rw [wfItems]
          exact ⟨parseVal_wf fuel _ _ _ heq0, parseElems_wf fuel _ _ _ heq1⟩
        · exact Option.noConfusion h
      · cases h
        rw [wfItems]
        exact ⟨parseVal_wf fuel _ _ _ heq0, by simp [wfItems]⟩
      · exact Option.noConfusion h

/-- The member accumulator stays sorted and well-formed through the
decoder. -/
theorem parseMembers_wf : ∀ (fuel : Nat) (acc : List (List Char × JVal))
    (cs : List Char) (ms : List (List Char × JVal)) (rest : List Char),
    sortedKeys acc → wfMembers acc →
    parseMembers fuel acc cs = some (ms, rest) → sortedKeys ms ∧ wfMembers ms
  | 0, _, _, _, _, _, _, h => by simp [parseMembers] at h
  | fuel + 1, acc, cs, ms, rest, hs, hw, h => by
    simp only [parseMembers] at h
    split at h
    · split at h
      · exact Option.noConfusion h
      · rename_i k r1 heqk
        split at h
        · split at h
          · exact Option.noConfusion h
          · rename_i v0 r3 heqv
            have hv : wfVal v0 := parseVal_wf fuel _ _ _ heqv
            split at h
            · exact parseMembers_wf fuel _ _ _ _
                (insertKV_sorted k v0 acc hs) (insertKV_wfMembers k v0 hv acc hw) h
            · cases h
              exact ⟨insertKV_sorted k v0 acc hs,
                insertKV_wfMembers k v0 hv acc hw⟩
            · exact Option.noConfusion h
        · exact Option.noConfusion h
    · exact Option.noConfusion h

end


theorem skipWs_cons (c : Char) (t : List Char) (h : isWsChar c = false) :
    skipWs (c :: t) = c :: t := by
  simp [skipWs, h]

theorem numStop_cons (c : Char)
    (h : ¬(isDigitChar c = true ∨ c = '.' ∨ c = 'e' ∨ c = 'E')) (t : List Char) :
    numStop (c :: t) := h

/-- A number-shaped token starts with a minus sign or a digit. -/
theorem goodNum_head (lit : List Char) (hg : GoodNum lit) :
    ∃ c t, lit = c :: t ∧ (c = '-' ∨ isDigitChar c = true) := by
  obtain ⟨sgn, ds, fr, ex, rfl, hsgn, hne, hds, -⟩ := hg
  rcases hsgn with rfl | rfl
  · cases ds with
    | nil => exact absurd rfl hne
    | cons d t =>
      exact ⟨d, t ++ fr ++ ex, by simp,
        Or.inr (hds d (List.mem_cons_self _ _))⟩
  · exact ⟨'-', ds ++ fr ++ ex, by simp, Or.inl rfl⟩

/-- A rendered well-formed value starts with a character that is
neither whitespace nor a closing bracket. -/
theorem renderVal_head (v : JVal) (hv : wfVal v) :
    ∃ c t, renderVal v = c :: t ∧ isWsChar c = false ∧ c ≠ ']' ∧ c ≠ '}' := by
  cases v with
  | num lit =>
    rw [wfVal] at hv
    obtain ⟨c0, t0, hlit, hg0⟩ := goodNum_head lit hv
    rcases hg0 with rfl | hd
    · refine ⟨'-', t0, by rw [renderVal, hlit], ?_, ?_, ?_⟩ <;> decide
    · obtain ⟨hws, -, -, -, -, -, -, hbr, hbc, -⟩ := digit_not_special c0 hd
      exact ⟨c0, t0, by rw [renderVal, hlit], hws, hbr, hbc⟩
  | bool b =>
    cases b with
    | true => refine ⟨'t', _, rfl, ?_, ?_, ?_⟩ <;> decide
    | false => refine ⟨'f', _, rfl, ?_, ?_, ?_⟩ <;> decide
  | null => refine ⟨'n', _, rfl, ?_, ?_, ?_⟩ <;> decide
  | str s => refine ⟨'"', _, rfl, ?_, ?_, ?_⟩ <;> decide
  | arr es => refine ⟨'[', _, rfl, ?_, ?_, ?_⟩ <;> decide
  | obj ms => refine ⟨'{', _, rfl, ?_, ?_, ?_⟩ <;> decide

/-- The value parser on input that starts like a number defers to
`scanNum`. -/
theorem parseVal_num_dispatch (f : Nat) (c0 : Char) (t : List Char)
    (hg : c0 = '-' ∨ isDigitChar c0 = true) :
    parseVal (f + 1) (c0 :: t)
      = (match scanNum (c0 :: t) with
         | some (lit, r1) => some (JVal.num lit, r1)
         | none => none) := by
  have hfacts : isWsChar c0 = false ∧ c0 ≠ 'n' ∧ c0 ≠ 't' ∧ c0 ≠ 'f'
      ∧ c0 ≠ '"' ∧ c0 ≠ '[' ∧ c0 ≠ '{' := by
    rcases hg with rfl | hd
    · exact ⟨by decide, by decide, by decide, by decide, by decide, by decide,
        by decide⟩
    · obtain ⟨hws, hn, ht, hf2, hq, hbk, hbc, -⟩ := digit_not_special c0 hd
      exact ⟨hws, hn, ht, hf2, hq, hbk, hbc⟩
  obtain ⟨hws, hn, ht, hf2, hq, hbk, hbc⟩ := hfacts
  have hgb : (decide (c0 = '-') || isDigitChar c0) = true := by
    rcases hg with rfl | hd
    · simp
    · simp [hd]
  conv_lhs => rw [parseVal]
  rw [skipWs_cons c0 t hws]
  simp [hn, ht, hf2, hq, hbk, hbc, hgb]

/-- The value parser on a rendered non-empty array defers to
`parseElems`. -/
theorem parseVal_arr_dispatch (f : Nat) (v : JVal) (vs : List JVal)
    (rest : List Char) (hv : wfVal v) :
    parseVal (f + 1) ('[' :: (renderItems (v :: vs) ++ ']' :: rest))
      = (match parseElems f (renderItems (v :: vs) ++ ']' :: rest) with
         | some (es, r1) => some (JVal.arr es, r1)
         | none => none) := by
  obtain ⟨c, t, hren, hws, hbr, hbc⟩ := renderVal_head v hv
  have hitems : renderItems (v :: vs) ++ ']' :: rest
      = c :: (t ++ (renderItemsTail vs ++ ']' :: rest)) := by
    rw [renderItems, hren]
    simp [List.append_assoc]
  have step : parseVal (f + 1) ('[' :: (renderItems (v :: vs) ++ ']' :: rest))
      = (match skipWs (renderItems (v :: vs) ++ ']' :: rest) with
         | ']' :: r1 => some (JVal.arr [], r1)
         | r0 =>
           match parseElems f r0 with
           | some (es, r1) => some (JVal.arr es, r1)
           | none => none) := rfl
  rw [step, hitems, skipWs_cons c _ hws]
  simp [hbr]

/-- The value parser on a rendered non-empty object defers to
`parseMembers`. -/
theorem parseVal_obj_dispatch (f : Nat) (k : List Char) (v : JVal)
    (ms : List (List Char × JVal)) (rest : List Char) :
    parseVal (f + 1) ('{' :: (renderMembers ((k, v) :: ms) ++ '}' :: rest))
      = (match parseMembers f [] (renderMembers ((k, v) :: ms) ++ '}' :: rest) with
         | some (ms1, r1) => some (JVal.obj ms1, r1)
         | none => none) := by
  have hmem : renderMembers ((k, v) :: ms) ++ '}' :: rest
      = '"' :: (k.flatMap escapeChar
          ++ ('"' :: (':' :: (renderVal v ++ (renderMembersTail ms ++ '}' :: rest))))) := by
    rw [renderMembers, renderStr]
    simp [List.append_assoc]
  have step : parseVal (f + 1) ('{' :: (renderMembers ((k, v) :: ms) ++ '}' :: rest))
      = (match skipWs (renderMembers ((k, v) :: ms) ++ '}' :: rest) with
         | '}' :: r1 => some (JVal.obj [], r1)
         | r0 =>
           match parseMembers f [] r0 with
           | some (ms1, r1) => some (JVal.obj ms1, r1)
           | none => none) := rfl
  rw [step, hmem, skipWs_cons '"' _ (by decide)]
  simp


theorem renderVal_len_pos (v : JVal) (hv : wfVal v) :
    1 ≤ (renderVal v).length := by
  obtain ⟨c, t, hren, -⟩ := renderVal_head v hv
  rw [hren]
  simp

theorem renderStr_len (k : List Char) : 2 ≤ (renderStr k).length := by
  rw [renderStr]
  simp

mutual

/-- Decoding a rendered well-formed value recovers it exactly,
before any continuation that cannot extend a number token. -/
theorem rt_val : ∀ (fuel : Nat) (v : JVal) (rest : List Char),
    wfVal v → (renderVal v).length < fuel → numStop rest →
    parseVal fuel (renderVal v ++ rest) = some (v, rest)
  | fuel, .null, rest, _, hf, _ => by
    cases fuel with
    | zero => exact absurd hf (Nat.not_lt_zero _)
    | succ f => rfl
  | fuel, .bool b, rest, _, hf, _ => by
    cases fuel with
    | zero => exact absurd hf (Nat.not_lt_zero _)
    | succ f => cases b <;> rfl
  | fuel, .num lit, rest, hwf, hf, hstop => by
    cases fuel with
    | zero => exact absurd hf (Nat.not_lt_zero _)
    | succ f =>
      rw [wfVal] at hwf
      obtain ⟨c0, t0, hlit, hg0⟩ := goodNum_head lit hwf
      have harg : renderVal (.num lit) ++ rest = c0 :: (t0 ++ rest) := by
        rw [renderVal, hlit]
        rfl
      rw [harg, parseVal_num_dispatch f c0 (t0 ++ rest) hg0]
      have hscan := goodNum_replay lit hwf rest hstop
      rw [hlit] at hscan
      rw [show c0 :: (t0 ++ rest) = (c0 :: t0) ++ rest from rfl, hscan]
      rw [← hlit]
  | fuel, .str s, rest, _, hf, _ => by
    cases fuel with
    | zero => exact absurd hf (Nat.not_lt_zero _)
    | succ f =>
      have harg : renderVal (.str s) ++ rest
          = '"' :: (s.flatMap escapeChar ++ ('"' :: rest)) := by
        rw [renderVal, renderStr]
        simp
      have step : parseVal (f + 1) ('"' :: (s.flatMap escapeChar ++ ('"' :: rest)))
          = (match parseStrBody (s.flatMap escapeChar ++ ('"' :: rest)) with
             | some (s1, r1) => some (JVal.str s1, r1)
             | none => none) := rfl
      rw [harg, step, parseStrBody_render]
  | fuel, .arr [], rest, _, hf, _ => by
    cases fuel with
    | zero => exact absurd hf (Nat.not_lt_zero _)
    | succ f => rfl
  | fuel, .arr (v :: vs), rest, hwf, hf, _ => by
    cases fuel with
    | zero => exact absurd hf (Nat.not_lt_zero _)
    | succ f =>
      rw [wfVal] at hwf
      have hv : wfVal v := hwf.1
      have harg : renderVal (.arr (v :: vs)) ++ rest
          = '[' :: (renderItems (v :: vs) ++ ']' :: rest) := by
        rw [renderVal]
        simp
      have hlen : (renderItems (v :: vs)).length + 1 < f + 1 + 1 := by
        rw [renderVal] at hf
        simp only [List.length_cons, List.length_append,
          List.length_singleton] at hf
        omega
      have hlen2 : (renderItems (v :: vs)).length + 1 < f := by
        rw [renderVal] at hf
        simp only [List.length_cons, List.length_append,
          List.length_singleton] at hf
        omega
      rw [harg, parseVal_arr_dispatch f v vs rest hv,
        rt_items f v vs rest hwf hlen2]
  | fuel, .obj [], rest, _, hf, _ => by
    cases fuel with
    | zero => exact absurd hf (Nat.not_lt_zero _)
    | succ f => rfl
  | fuel, .obj ((k, v) :: ms), rest, hwf, hf, _ => by
    cases fuel with
    | zero => exact absurd hf (Nat.not_lt_zero _)
    | succ f =>
      rw [wfVal] at hwf
      have harg : renderVal (.obj ((k, v) :: ms)) ++ rest
          = '{' :: (renderMembers ((k, v) :: ms) ++ '}' :: rest) := by
        rw [renderVal]
        simp
      have hlen2 : (renderMembers ((k, v) :: ms)).length + 1 < f := by
        rw [renderVal] at hf
        simp only [List.length_cons, List.length_append,
          List.length_singleton] at hf
        omega
      rw [harg, parseVal_obj_dispatch f k v ms rest,
        rt_members f k v ms [] rest hwf.2 hwf.1
          (fun a ha => absurd ha (List.not_mem_nil a)) hlen2]
      rfl

/-- Decoding a rendered non-empty element list recovers it. -/
theorem rt_items : ∀ (fuel : Nat) (v : JVal) (vs : List JVal) (rest : List Char),
    wfItems (v :: vs) → (renderItems (v :: vs)).length + 1 < fuel →
    parseElems fuel (renderItems (v :: vs) ++ ']' :: rest) = some (v :: vs, rest)
  | fuel, v, vs, rest, hwf, hflen => by
    cases fuel with
    | zero => exact absurd hflen (Nat.not_lt_zero _)
    | succ f =>
      rw [wfItems] at hwf
      obtain ⟨hv, hvs⟩ := hwf
      have step : ∀ cs, parseElems (f + 1) cs
          = (match parseVal f cs with
             | none => none
             | some (v1, r) =>
               match skipWs r with
               | ',' :: r1 =>
                 (match parseElems f r1 with
                  | some (vs1, r2) => some (v1 :: vs1, r2)
                  | none => none)
               | ']' :: r1 => some ([v1], r1)
               | _ => none) := fun cs => rfl
      cases vs with
      | nil =>
        have harg : renderItems [v] ++ ']' :: rest = renderVal v ++ ']' :: rest := by
          simp [renderItems, renderItemsTail]
        have hlenv : (renderVal v).length < f := by
          simp only [renderItems, renderItemsTail, List.length_append,
            List.length_nil] at hflen
          omega
        have hv1 := rt_val f v (']' :: rest) hv hlenv
          (numStop_cons ']' (by decide) rest)
        have hsk : skipWs (']' :: rest) = ']' :: rest :=
          skipWs_cons ']' _ (by decide)
        rw [step, harg]
        simp only [hv1, hsk]
      | cons v2 vs2 =>
        have harg : renderItems (v :: v2 :: vs2) ++ ']' :: rest
            = renderVal v ++ (',' :: (renderItems (v2 :: vs2) ++ ']' :: rest)) := by
          simp [renderItems, renderItemsTail, List.append_assoc]
        have hlenv : (renderVal v).length < f := by
          simp only [renderItems, renderItemsTail, List.length_append,
            List.length_cons] at hflen
          omega
        have hlentail : (renderItems (v2 :: vs2)).length + 1 < f := by
          simp only [renderItems, renderItemsTail, List.length_append,
            List.length_cons] at hflen ⊢
          omega
        have hv1 := rt_val f v (',' :: (renderItems (v2 :: vs2) ++ ']' :: rest)) hv
          hlenv (numStop_cons ',' (by decide) _)
        have key := rt_items f v2 vs2 rest hvs hlentail
        have hsk : skipWs (',' :: (renderItems (v2 :: vs2) ++ ']' :: rest))
            = ',' :: (renderItems (v2 :: vs2) ++ ']' :: rest) :=
          skipWs_cons ',' _ (by decide)
        rw [step, harg]
        simp only [hv1, hsk, key]

/-- Decoding rendered non-empty members folds them, in order, onto
the accumulator. -/
theorem rt_members : ∀ (fuel : Nat) (k : List Char) (v : JVal)
    (ms : List (List Char × JVal)) (acc : List (List Char × JVal))
    (rest : List Char),
    wfMembers ((k, v) :: ms) → sortedKeys ((k, v) :: ms) →
    (∀ a ∈ acc, ∀ b ∈ (k, v) :: ms, a.1 < b.1) →
    (renderMembers ((k, v) :: ms)).length + 1 < fuel →
    parseMembers fuel acc (renderMembers ((k, v) :: ms) ++ '}' :: rest)
      = some (acc ++ (k, v) :: ms, rest)
  | fuel, k, v, ms, acc, rest, hwf, hsort, hacc, hflen => by
    cases fuel with
    | zero => exact absurd hflen (Nat.not_lt_zero _)
    | succ f =>
      rw [wfMembers] at hwf
      obtain ⟨hv, hwms⟩ := hwf
      have hsplit : renderMembers ((k, v) :: ms) ++ '}' :: rest
          = '"' :: (k.flatMap escapeChar
              ++ ('"' :: (':' :: (renderVal v
                  ++ (renderMembersTail ms ++ '}' :: rest))))) := by
        rw [renderMembers, renderStr]
        simp
      have step : ∀ cs, parseMembers (f + 1) acc cs
          = (match skipWs cs with
             | '"' :: r =>
               (match parseStrBody r with
                | none => none
                | some (k1, r1) =>
                  match skipWs r1 with
                  | ':' :: r2 =>
                    (match parseVal f r2 with
                     | none => none
                     | some (v1, r3) =>
                       match skipWs r3 with
                       | ',' :: r4 => parseMembers f (insertKV k1 v1 acc) r4
                       | '}' :: r4 => some (insertKV k1 v1 acc, r4)
                       | _ => none)
                  | _ => none)
             | _ => none) := fun cs => rfl
      have hkey : parseStrBody (k.flatMap escapeChar
          ++ ('"' :: (':' :: (renderVal v ++ (renderMembersTail ms ++ '}' :: rest)))))
          = some (k, ':' :: (renderVal v ++ (renderMembersTail ms ++ '}' :: rest))) :=
        parseStrBody_render k _
      have hins : insertKV k v acc = acc ++ [(k, v)] :=
        insertKV_append k v acc fun kv hkv =>
          hacc kv hkv (k, v) (List.mem_cons_self _ _)
      have hskq : skipWs ('"' :: (k.flatMap escapeChar
          ++ ('"' :: (':' :: (renderVal v ++ (renderMembersTail ms ++ '}' :: rest))))))
          = '"' :: (k.flatMap escapeChar
              ++ ('"' :: (':' :: (renderVal v ++ (renderMembersTail ms ++ '}' :: rest))))) :=
        skipWs_cons '"' _ (by decide)
      have hskc : skipWs (':' :: (renderVal v ++ (renderMembersTail ms ++ '}' :: rest)))
          = ':' :: (renderVal v ++ (renderMembersTail ms ++ '}' :: rest)) :=
        skipWs_cons ':' _ (by decide)
      cases ms with
      | nil =>
        have harg2 : renderVal v ++ (renderMembersTail ([] : List (List Char × JVal))
            ++ '}' :: rest) = renderVal v ++ '}' :: rest := by
          simp [renderMembersTail]
        have hlenv : (renderVal v).length < f := by
          simp only [renderMembers, renderMembersTail, renderStr,
            List.length_append, List.length_cons, List.length_nil] at hflen
          omega
        have hv1 := rt_val f v ('}' :: rest) hv hlenv
          (numStop_cons '}' (by decide) rest)
        have hsk2 : skipWs ('}' :: rest) = '}' :: rest :=
          skipWs_cons '}' _ (by decide)
        rw [step, hsplit, hskq]
        simp only [hkey]
        rw [hskc]
        simp only [harg2, hv1, hsk2, hins]
      | cons kv2 ms2 =>
        obtain ⟨k2, v2⟩ := kv2
        have htail : renderMembersTail ((k2, v2) :: ms2)
            = ',' :: renderMembers ((k2, v2) :: ms2) := by
          rw [renderMembersTail, renderMembers]
        have hlenv : (renderVal v).length < f := by
          simp only [renderMembers, renderMembersTail, renderStr,
            List.length_append, List.length_cons] at hflen
          omega
        have hlentail : (renderMembers ((k2, v2) :: ms2)).length + 1 < f := by
          simp only [renderMembers, renderMembersTail, renderStr,
            List.length_append, List.length_cons] at hflen ⊢
          omega
        have hv1 := rt_val f v
          (',' :: (renderMembers ((k2, v2) :: ms2) ++ '}' :: rest)) hv hlenv
          (numStop_cons ',' (by decide) _)
        have hsorttail : sortedKeys ((k2, v2) :: ms2) :=
          (List.pairwise_cons.mp hsort).2
        have hheadlt := (List.pairwise_cons.mp hsort).1
        have hacc2 : ∀ a ∈ acc ++ [(k, v)], ∀ b ∈ (k2, v2) :: ms2, a.1 < b.1 := by
          intro a ha b hb
          rcases List.mem_append.mp ha with ha1 | ha1
          · exact hacc a ha1 b (List.mem_cons_of_mem _ hb)
          · rw [List.mem_singleton.mp ha1]
            exact hheadlt b hb
        have key := rt_members f k2 v2 ms2 (acc ++ [(k, v)]) rest hwms
          hsorttail hacc2 hlentail
        have harg3 : renderVal v ++ (renderMembersTail ((k2, v2) :: ms2)
            ++ '}' :: rest)
            = renderVal v ++ (',' :: (renderMembers ((k2, v2) :: ms2)
                ++ '}' :: rest)) := by
          rw [htail]
          simp
        have hsk2 : skipWs (',' :: (renderMembers ((k2, v2) :: ms2) ++ '}' :: rest))
            = ',' :: (renderMembers ((k2, v2) :: ms2) ++ '}' :: rest) :=
          skipWs_cons ',' _ (by decide)
        rw [step, hsplit, hskq]
        simp only [hkey]
        rw [hskc]
        simp only [harg3, hv1, hsk2, hins, key]
        rw [List.append_assoc]
        rfl

end


/-- Decoding a rendered well-formed value recovers it. -/
theorem parseMsg_renderVal (v : JVal) (hv : wfVal v) :
    parseMsg (renderVal v) = some v := by
  have h := rt_val ((renderVal v).length + 1) v [] hv (by omega)
    (by rw [numStop]; trivial)
  rw [List.append_nil] at h
  rw [parseMsg, h]

/-- Every decoded message is well-formed. -/
theorem parseMsg_wf (m : List Char) (v : JVal) (h : parseMsg m = some v) :
    wfVal v := by
  rw [parseMsg] at h
  cases heq : parseVal (m.length + 1) m with
  | none => rw [heq] at h; exact Option.noConfusion h
  | some p =>
    obtain ⟨v1, r1⟩ := p
    rw [heq] at h
    simp only [Option.some.injEq] at h
    rw [← h]
    exact parseVal_wf _ _ _ _ heq

/-- Masking never changes the keys of an object. -/
theorem maskMembers_keys (rules : List MaskFieldRule) :
    ∀ ms, (maskMembers ms rules).map Prod.fst = ms.map Prod.fst := by
  intro ms
  induction ms with
  | nil => rfl
  | cons kv rest ih =>
    obtain ⟨k, v⟩ := kv
    rw [maskMembers]
    by_cases hm : shouldMaskKeyWithRules k rules = true
    · rw [if_pos hm]
      simp [ih]
    · rw [if_neg hm]
      simp [ih]

mutual

/-- Masking preserves well-formedness. -/
theorem maskVal_wf : ∀ (rules : List MaskFieldRule) (v : JVal),
    wfVal v → wfVal (maskJSONValueWithRules v rules)
  | rules, .null, h => h
  | rules, .bool b, h => h
  | rules, .num lit, h => h
  | rules, .str s, h => h
  | rules, .arr es, h => by
    rw [wfVal] at h
    rw [maskJSONValueWithRules, wfVal]
    exact maskElems_wf rules es h
  | rules, .obj ms, h => by
    rw [wfVal] at h
    rw [maskJSONValueWithRules, wfVal]
    constructor
    · have h1 : List.Pairwise (· < ·) (ms.map Prod.fst) :=
        List.pairwise_map.mpr h.1
      have h2 : List.Pairwise (· < ·) ((maskMembers ms rules).map Prod.fst) := by
        rw [maskMembers_keys]
        exact h1
      exact List.pairwise_map.mp h2
    · exact maskMembers_wf rules ms h.2

theorem maskMembers_wf : ∀ (rules : List MaskFieldRule)
    (ms : List (List Char × JVal)),
    wfMembers ms → wfMembers (maskMembers ms rules)
  | rules, [], h => h
  | rules, (k, v) :: rest, h => by
    rw [wfMembers] at h
    rw [maskMembers]
    by_cases hm : shouldMaskKeyWithRules k rules = true
    · rw [if_pos hm, wfMembers]
      exact ⟨trivial, maskMembers_wf rules rest h.2⟩
    · rw [if_neg hm, wfMembers]
      exact ⟨maskVal_wf rules v h.1, maskMembers_wf rules rest h.2⟩

theorem maskElems_wf : ∀ (rules : List MaskFieldRule) (es : List JVal),
    wfItems es → wfItems (maskElems es rules)
  | rules, [], h => h
  | rules, v :: vs, h => by
    rw [wfItems] at h
    rw [maskElems, wfItems]
    exact ⟨maskVal_wf rules v h.1, maskElems_wf rules vs h.2⟩

end

mutual

/-- Field-name masking is idempotent on decoded values. -/
theorem maskVal_idem : ∀ (rules : List MaskFieldRule) (v : JVal),
    maskJSONValueWithRules (maskJSONValueWithRules v rules) rules
      = maskJSONValueWithRules v rules
  | rules, .null => rfl
  | rules, .bool b => rfl
  | rules, .num lit => rfl
  | rules, .str s => rfl
  | rules, .arr es => by
    rw [maskJSONValueWithRules, maskJSONValueWithRules,
      maskElems_idem rules es]
  | rules, .obj ms => by
    rw [maskJSONValueWithRules, maskJSONValueWithRules,
      maskMembers_idem rules ms]

theorem maskMembers_idem : ∀ (rules : List MaskFieldRule)
    (ms : List (List Char × JVal)),
    maskMembers (maskMembers ms rules) rules = maskMembers ms rules
  | rules, [] => rfl
  | rules, (k, v) :: rest => by
    rw [maskMembers]
    by_cases hm : shouldMaskKeyWithRules k rules = true
    · rw [if_pos hm, maskMembers, if_pos hm, maskMembers_idem rules rest]
    · rw [if_neg hm, maskMembers, if_neg hm, maskMembers_idem rules rest,
        maskVal_idem rules v]

theorem maskElems_idem : ∀ (rules : List MaskFieldRule) (es : List JVal),
    maskElems (maskElems es rules) rules = maskElems es rules
  | rules, [] => rfl
  | rules, v :: vs => by
    rw [maskElems, maskElems, maskVal_idem rules v, maskElems_idem rules vs]

end


/-- C2: the frozen claim fails: a regex replacement whose output
re-matches the pattern makes a second masking pass differ from the
first (rule x -> xx on message "x" yields "xx", then "xxxx"). -/
theorem mask_idempotent_counterexample :
    applyMasking [⟨some ['x'], ['x', 'x']⟩] []
        (applyMasking [⟨some ['x'], ['x', 'x']⟩] [] ['x'] false) false
      ≠ applyMasking [⟨some ['x'], ['x', 'x']⟩] [] ['x'] false := by
  decide

/-- C2 (amended): masking is idempotent whenever the regex rule list is
empty: for every field-rule set, message and structured-mode flag,
applying the masking stage twice equals applying it once. -/
theorem mask_idempotent_no_regex (rrs : List MaskRuleRegex)
    (frs : List MaskFieldRule) (m : List Char) (s : Bool)
    (hr : rrs = []) :
    applyMasking rrs frs (applyMasking rrs frs m s) s
      = applyMasking rrs frs m s := by
  subst hr
  have hmr : ∀ x : List Char, maskRegexWithRules x [] = x := by
    intro x
    rw [maskRegexWithRules]
    simp
  cases s with
  | false => simp [applyMasking, hmr]
  | true =>
    by_cases he : frs = []
    · subst he
      simp [applyMasking, maskJSONFieldsWithRules, hmr]
    · have hie : frs.isEmpty = false := by
        cases frs with
        | nil => exact absurd rfl he
        | cons a l => rfl
      cases hp : parseMsg m with
      | none =>
        have h1 : maskJSONFieldsWithRules m frs = (m, false) := by
          rw [maskJSONFieldsWithRules, if_neg (by simp [hie]), hp]
        have houter : applyMasking [] frs m true = m := by
          simp [applyMasking, h1, hmr]
        rw [houter]
        exact houter
      | some v =>
        have hwf := parseMsg_wf m v hp
        have h1 : maskJSONFieldsWithRules m frs
            = (renderVal (maskJSONValueWithRules v frs), true) := by
          rw [maskJSONFieldsWithRules, if_neg (by simp [hie]), hp]
        have houter : applyMasking [] frs m true
            = renderVal (maskJSONValueWithRules v frs) := by
          simp [applyMasking, h1, hmr]
        have hwwf : wfVal (maskJSONValueWithRules v frs) :=
          maskVal_wf frs v hwf
        have hp2 : parseMsg (renderVal (maskJSONValueWithRules v frs))
            = some (maskJSONValueWithRules v frs) :=
          parseMsg_renderVal _ hwwf
        have h2 : maskJSONFieldsWithRules
              (renderVal (maskJSONValueWithRules v frs)) frs
            = (renderVal (maskJSONValueWithRules
                (maskJSONValueWithRules v frs) frs), true) := by
          rw [maskJSONFieldsWithRules, if_neg (by simp [hie]), hp2]
        rw [houter]
        simp [applyMasking, h2, maskVal_idem, hmr]

/-- C2 (amended) at a concrete configuration: one field rule, no regex
rules, structured mode on. -/
theorem mask_idempotent_no_regex_witness :
    applyMasking [] [⟨[['p']], []⟩]
        (applyMasking [] [⟨[['p']], []⟩] ['h', 'i'] true) true
      = applyMasking [] [⟨[['p']], []⟩] ['h', 'i'] true :=
  mask_idempotent_no_regex [] [⟨[['p']], []⟩] ['h', 'i'] true rfl

/-- C3: the frozen claim fails when the field-rule list is empty:
structured-mode masking then returns the message without decoding it,
so the whitespace of a valid JSON message survives, whereas the claimed
parse/mask/reserialize pipeline would canonicalise it. -/
theorem structured_masking_counterexample :
    applyMasking [] [] (String.toList "\x7b\"a\": 1\x7d") true
      = String.toList "\x7b\"a\": 1\x7d"
    ∧ (parseMsg (String.toList "\x7b\"a\": 1\x7d")).map
        (fun v => maskRegexWithRules
          (renderVal (maskJSONValueWithRules v [])) [])
      = some (String.toList "\x7b\"a\":1\x7d")
    ∧ String.toList "\x7b\"a\": 1\x7d" ≠ String.toList "\x7b\"a\":1\x7d" := by
  refine ⟨by decide, by decide, by decide⟩

/-- C3 (amended): when at least one field-name rule is configured,
structured-mode masking decodes the message; on success it masks the
decoded value, re-serialises it and applies the regex rules to the
result, and on parse failure it applies the regex rules to the
original message; with structured mode off only the regex rules
apply. -/
theorem structured_masking_decomposition (rrs : List MaskRuleRegex)
    (frs : List MaskFieldRule) (m : List Char) (hne : frs ≠ []) :
    (applyMasking rrs frs m true
      = (match parseMsg m with
         | some v => maskRegexWithRules
             (renderVal (maskJSONValueWithRules v frs)) rrs
         | none => maskRegexWithRules m rrs))
    ∧ applyMasking rrs frs m false = maskRegexWithRules m rrs := by
  have hie : frs.isEmpty = false := by
    cases frs with
    | nil => exact absurd rfl hne
    | cons a l => rfl
  constructor
  · cases hp : parseMsg m with
    | none => simp [applyMasking, maskJSONFieldsWithRules, hie, hp]
    | some v => simp [applyMasking, maskJSONFieldsWithRules, hie, hp]
  · simp [applyMasking]

/-- C3 (amended) at a concrete configuration: one field rule and a
non-JSON message. -/
theorem structured_masking_decomposition_witness :
    (applyMasking [] [⟨[['p']], []⟩] ['h'] true
      = (match parseMsg ['h'] with
         | some v => maskRegexWithRules
             (renderVal (maskJSONValueWithRules v [⟨[['p']], []⟩])) []
         | none => maskRegexWithRules ['h'] []))
    ∧ applyMasking [] [⟨[['p']], []⟩] ['h'] false
        = maskRegexWithRules ['h'] [] :=
  structured_masking_decomposition [] [⟨[['p']], []⟩] ['h']
    (List.cons_ne_nil _ _)

end Unologger
